import Mathlib

/-!
Verification of logro (size-based log-rotation writer)

A shallow embedding of the logro library's data structures and operations,
with theorems checking the natural-language specification against the code.

Conventions:
* Go byte slices are `List Nat` (each element a byte value).
* Go `int`/`int64` are `Nat`/`Int`; arithmetic is unbounded (the library's
  sizes are far from the 64-bit boundary in all intended uses).
* The underlying `io.Writer` sink of `bufIO` is modelled by a response
  schedule `sched : Nat → SinkResp`: the i-th sink call accepts
  `min resp.cnt (length of chunk)` bytes and reports `resp.err`.
  The bytes actually received by the sink are accumulated in `received`.
* Fallible or possibly-diverging loops take explicit fuel and return
  `Option`; `none` means the Go loop has not finished within the fuel.
-/

namespace Logro

/-- Errors visible in the bufIO / rotation layer: `io.ErrShortWrite`,
an error returned by the underlying sink (tagged by a code), or a failure
of `open()` during rotation. -/
inductive GoErr where
  | shortWrite : GoErr
  | sinkErr : Nat → GoErr
  | openErr : GoErr
deriving DecidableEq, Repr

/-- Response of the underlying `io.Writer` to one `Write` call:
how many bytes it reports written (clamped to the chunk length, as the
`io.Writer` contract requires) and which error it returns. -/
structure SinkResp where
  cnt : Nat
  err : Option GoErr
deriving DecidableEq, Repr

/-- State of `bufIO` (src/bufio.go): sticky error `err`, buffered bytes
`data` (Go's `buf[0:n]`), capacity `cap` (Go's `len(buf)`), the identity
`w` of the current sink, plus the sink-side instrumentation: the number
`calls` of sink `Write` calls made so far (indexing the schedule) and the
bytes `received` by the sink, in order. -/
structure Bufio where
  cap : Nat
  data : List Nat
  err : Option GoErr
  w : Nat
  calls : Nat
  received : List Nat
deriving DecidableEq, Repr

/-- `newBufio(w, size)` (src/bufio.go lines 33-39). -/
def newBufio (w : Nat) (size : Nat) : Bufio :=
  { cap := size, data := [], err := none, w := w, calls := 0, received := [] }

/-- `bufIO.reset` (src/bufio.go lines 42-46): replaces the sink, keeps all
buffered bytes and the sticky error. -/
def Bufio.reset (b : Bufio) (w : Nat) : Bufio :=
  { b with w := w }

/-- One sink `Write` call of chunk `p` against the schedule: the sink
accepts `min resp.cnt p.length` bytes and reports `resp.err`. -/
def sinkWrite (sched : Nat → SinkResp) (b : Bufio) (p : List Nat) :
    Nat × Option GoErr × Bufio :=
  let resp := sched b.calls
  let n := min resp.cnt p.length
  (n, resp.err,
    { b with calls := b.calls + 1, received := b.received ++ p.take n })

/-- `bufIO.flush` (src/bufio.go lines 85-106). Returns `(flushed, err)`
together with the new state. A short write with a nil sink error becomes
`io.ErrShortWrite`; on error the unflushed tail is shifted to the front
(`data.drop n`) and the error becomes sticky. -/
def Bufio.flush (sched : Nat → SinkResp) (b : Bufio) :
    Nat × Option GoErr × Bufio :=
  match b.err with
  | some e => (0, some e, b)
  | none =>
    if b.data.length = 0 then (0, none, b)
    else
      match sinkWrite sched b b.data with
      | (n, e0, b1) =>
        match (if n < b.data.length ∧ e0 = none
               then some GoErr.shortWrite else e0) with
        | some e' =>
          (n, some e', { b1 with data := b1.data.drop n, err := some e' })
        | none => (n, none, { b1 with data := [] })

/-- Loop body of `bufIO.write` (src/bufio.go lines 52-81), with fuel.
Accumulators `nn` (bytes accepted) and `fw` (bytes forwarded to the sink
during this call) mirror the Go named results. Returns `none` when the Go
loop would still be running after `fuel` iterations. -/
def Bufio.writeLoop (sched : Nat → SinkResp) :
    Nat → List Nat → Bufio → Nat → Nat →
    Option (Nat × Nat × Option GoErr × Bufio)
  | 0, _, _, _, _ => none
  | fuel + 1, p, b, nn, fw =>
    if p.length > b.cap - b.data.length ∧ b.err = none then
      if b.data.length = 0 then
        -- Large write, empty buffer: write directly from p.
        match sinkWrite sched b p with
        | (n, e0, b1) =>
          Bufio.writeLoop sched fuel (p.drop n) { b1 with err := e0 }
            (nn + n) (fw + n)
      else
        -- Try to fill buffer, then flush.
        match Bufio.flush sched
            { b with data :=
                b.data ++ p.take (min (b.cap - b.data.length) p.length) } with
        | (fn, _, b2) =>
          Bufio.writeLoop sched fuel
            (p.drop (min (b.cap - b.data.length) p.length)) b2
            (nn + min (b.cap - b.data.length) p.length) (fw + fn)
    else
      match b.err with
      | some e => some (nn, fw, some e, b)
      | none =>
        some (nn + min (b.cap - b.data.length) p.length, fw, none,
          { b with data :=
              b.data ++ p.take (min (b.cap - b.data.length) p.length) })

/-- `bufIO.write` (src/bufio.go lines 52-81): run the loop with the given
fuel starting from zero accumulators. -/
def Bufio.write (sched : Nat → SinkResp) (fuel : Nat) (p : List Nat)
    (b : Bufio) : Option (Nat × Nat × Option GoErr × Bufio) :=
  Bufio.writeLoop sched fuel p b 0 0

/-- Run a sequence of `bufIO.write` calls; `some` only if every call
terminated and returned a nil error. -/
def writeSeq (sched : Nat → SinkResp) (fuel : Nat) :
    List (List Nat) → Bufio → Option Bufio
  | [], b => some b
  | p :: ps, b =>
    match Bufio.write sched fuel p b with
    | some (_, _, none, b') => writeSeq sched fuel ps b'
    | _ => none

/-- A flush that returns a nil error forwards exactly the buffered bytes to
the sink, empties the buffer, and preserves capacity, sink and the absence
of a sticky error. -/
theorem flush_ok {sched : Nat → SinkResp} {b b' : Bufio} {fl : Nat}
    (h : Bufio.flush sched b = (fl, none, b')) :
    b'.received = b.received ++ b.data ∧ b'.data = [] ∧ b'.err = none ∧
      b'.cap = b.cap ∧ b'.w = b.w := by
  rcases hberr : b.err with _ | e
  · by_cases hlen : b.data.length = 0
    · have hdata : b.data = [] := List.length_eq_zero.mp hlen
      simp only [Bufio.flush, hberr, hlen, if_true, reduceIte,
        Prod.mk.injEq] at h
      obtain ⟨-, -, h3⟩ := h
      subst h3
      simp [hdata, hberr]
    · simp only [Bufio.flush, hberr, hlen, if_false, reduceIte, sinkWrite] at h
      set n := min (sched b.calls).cnt b.data.length with hn
      rcases he0 : (sched b.calls).err with _ | e0
      · by_cases hshort : n < b.data.length
        · simp [he0, hshort, hn] at h
        · simp only [he0, hshort, false_and, if_false, reduceIte,
            Prod.mk.injEq] at h
          obtain ⟨-, -, h3⟩ := h
          subst h3
          have hnd : n = b.data.length := by omega
          simp [hnd]
      · simp [he0, hn] at h
  · simp [Bufio.flush, hberr] at h

/-- A flush that returns an error leaves that error sticky in the state. -/
theorem flush_err {sched : Nat → SinkResp} {b b' : Bufio} {fl : Nat}
    {e : GoErr} (h : Bufio.flush sched b = (fl, some e, b')) :
    b'.err = some e := by
  rcases hberr : b.err with _ | e'
  · by_cases hlen : b.data.length = 0
    · simp [Bufio.flush, hberr, hlen] at h
    · simp only [Bufio.flush, hberr, hlen, if_false, reduceIte, sinkWrite] at h
      set n := min (sched b.calls).cnt b.data.length with hn
      rcases he0 : (sched b.calls).err with _ | e0
      · by_cases hshort : n < b.data.length
        · simp only [he0, hshort, true_and, if_true, reduceIte,
            Prod.mk.injEq] at h
          obtain ⟨-, he, h3⟩ := h
          subst h3; simp [← he]
        · simp [he0, hshort] at h
      · simp only [he0, reduceCtorEq, and_false, if_false, reduceIte,
          Prod.mk.injEq] at h
        obtain ⟨-, he, h3⟩ := h
        subst h3; simp [← he]
  · simp only [Bufio.flush, hberr, Prod.mk.injEq] at h
    obtain ⟨-, he, h3⟩ := h
    subst h3; simp [hberr, ← he]

/-- Write with a sticky error present: the call returns the sticky error
immediately, with the whole state (in particular the sink instrumentation)
unchanged. -/
theorem writeLoop_sticky {sched : Nat → SinkResp} {fuel : Nat} {p : List Nat}
    {b : Bufio} {nn fw : Nat} {e : GoErr} (h : b.err = some e) :
    Bufio.writeLoop sched (fuel + 1) p b nn fw = some (nn, fw, some e, b) := by
  rw [Bufio.writeLoop, if_neg (by simp [h]), h]

/-- Main invariant of the `bufIO.write` loop: an error-free run accepts all
of `p`, and afterwards the sink-received bytes followed by the buffered
bytes equal the old such bytes followed by `p`. -/
theorem writeLoop_ok {sched : Nat → SinkResp} :
    ∀ {fuel : Nat} {p : List Nat} {b : Bufio} {nn fw nn' fw' : Nat}
      {b' : Bufio},
    Bufio.writeLoop sched fuel p b nn fw = some (nn', fw', none, b') →
    b'.received ++ b'.data = b.received ++ b.data ++ p ∧
      nn' = nn + p.length ∧ b'.err = none ∧ b'.cap = b.cap ∧ b'.w = b.w := by
  intro fuel
  induction fuel with
  | zero => intro p b nn fw nn' fw' b' h; simp [Bufio.writeLoop] at h
  | succ fuel ih =>
    intro p b nn fw nn' fw' b' h
    rw [Bufio.writeLoop] at h
    by_cases hc : p.length > b.cap - b.data.length ∧ b.err = none
    · rw [if_pos hc] at h
      by_cases hd : b.data.length = 0
      · rw [if_pos hd] at h
        have hdata : b.data = [] := List.length_eq_zero.mp hd
        simp only [sinkWrite] at h
        obtain ⟨h1, h2, h3, h4, h5⟩ := ih h
        set n := min (sched b.calls).cnt p.length with hn
        have hnp : n ≤ p.length := by omega
        refine ⟨?_, ?_, h3, by simpa using h4, by simpa using h5⟩
        · rw [h1]
          simp only [hdata, List.append_nil]
          rw [List.append_assoc, List.take_append_drop]
        · rw [h2]
          simp only [List.length_drop]
          omega
      · rw [if_neg hd] at h
        set n := min (b.cap - b.data.length) p.length with hn
        have hnp : n ≤ p.length := by omega
        rcases hr : Bufio.flush sched { b with data := b.data ++ p.take n }
          with ⟨fl, e?, b2⟩
        rw [hr] at h
        simp only [] at h
        cases e? with
        | some e =>
          have hb2e : b2.err = some e := flush_err hr
          cases fuel with
          | zero => simp [Bufio.writeLoop] at h
          | succ fuel' =>
            rw [writeLoop_sticky hb2e] at h
            simp at h
        | none =>
          obtain ⟨f1, f2, f3, f4, f5⟩ := flush_ok hr
          obtain ⟨h1, h2, h3, h4, h5⟩ := ih h
          refine ⟨?_, ?_, h3, by rw [h4]; rw [show b2.cap = _ from f4], by rw [h5]; rw [show b2.w = _ from f5]⟩
          · rw [h1, f1, f2]
            simp only [List.append_nil, List.append_assoc,
              List.take_append_drop]
          · rw [h2]
            simp only [List.length_drop]
            omega
    · rw [if_neg hc] at h
      cases hberr : b.err with
      | some e => rw [hberr] at h; simp at h
      | none =>
        rw [hberr] at h
        simp only [Option.some.injEq, Prod.mk.injEq] at h
        obtain ⟨h1, -, -, h4⟩ := h
        have hple : p.length ≤ b.cap - b.data.length := by
          rcases not_and_or.mp hc with h' | h'
          · omega
          · exact absurd hberr h'
        have hmin : min (b.cap - b.data.length) p.length = p.length := by omega
        refine ⟨?_, by omega, by rw [← h4], by rw [← h4], by rw [← h4]⟩
        rw [← h4]
        simp [hmin, List.append_assoc]

/-- Sequencing error-free `bufIO.write` calls extends the sink bytes plus
buffered bytes by the concatenation of the payloads. -/
theorem writeSeq_ok {sched : Nat → SinkResp} {fuel : Nat} :
    ∀ {ps : List (List Nat)} {b b' : Bufio},
    writeSeq sched fuel ps b = some b' →
    b'.received ++ b'.data = b.received ++ b.data ++ ps.flatten := by
  intro ps
  induction ps with
  | nil => intro b b' h; simp only [writeSeq, Option.some.injEq] at h; simp [h]
  | cons p ps ih =>
    intro b b' h
    rw [writeSeq] at h
    rcases hw : Bufio.write sched fuel p b with _ | ⟨nn, fw, e?, b1⟩
    · rw [hw] at h; simp at h
    · rw [hw] at h
      cases e? with
      | some e => simp at h
      | none =>
        simp only [] at h
        obtain ⟨w1, -, -, -, -⟩ := writeLoop_ok hw
        have := ih h
        rw [this, w1, List.flatten]
        simp [List.append_assoc]

/-- C1: for every sequence of `write(p_1), ..., write(p_k)` on a `bufIO`
with any buffer capacity, followed by `flush()`, all returning without
error, the underlying sink receives exactly `p_1 ++ p_2 ++ ... ++ p_k`,
in order, byte for byte. -/
theorem c1_bufio_write_flush_concat (sched : Nat → SinkResp)
    (fuel w cap fl : Nat) (ps : List (List Nat)) (b1 b2 : Bufio)
    (hw : writeSeq sched fuel ps (newBufio w cap) = some b1)
    (hf : Bufio.flush sched b1 = (fl, none, b2)) :
    b2.received = ps.flatten := by
  have h1 := writeSeq_ok hw
  obtain ⟨f1, -, -, -, -⟩ := flush_ok hf
  rw [f1, h1]
  simp [newBufio]

theorem c1_bufio_write_flush_concat_witness :
    ({ cap := 2, data := [], err := none, w := 0, calls := 2,
       received := [1, 2, 3, 4, 5] } : Bufio).received =
      ([[1, 2, 3], [4, 5]] : List (List Nat)).flatten :=
  c1_bufio_write_flush_concat (fun _ => ⟨1000000, none⟩) 10 0 2 2
    [[1, 2, 3], [4, 5]]
    { cap := 2, data := [4, 5], err := none, w := 0, calls := 1,
      received := [1, 2, 3] }
    { cap := 2, data := [], err := none, w := 0, calls := 2,
      received := [1, 2, 3, 4, 5] }
    (by decide) (by decide)

/-- C5: once a `bufIO`'s sticky error is set, every subsequent `write` and
`flush` returns that same error with the state unchanged (in particular
`calls` and `received` are unchanged: no sink I/O is performed), and
`reset` replaces the sink while preserving the buffered bytes and the
sticky error. -/
theorem c5_bufio_sticky_error (sched : Nat → SinkResp) (fuel : Nat)
    (p : List Nat) (b : Bufio) (e : GoErr) (w' : Nat)
    (h : b.err = some e) :
    Bufio.write sched (fuel + 1) p b = some (0, 0, some e, b) ∧
    Bufio.flush sched b = (0, some e, b) ∧
    (b.reset w').data = b.data ∧ (b.reset w').err = some e ∧
    (b.reset w').w = w' := by
  refine ⟨writeLoop_sticky h, by simp [Bufio.flush, h], rfl, by simp [Bufio.reset, h], rfl⟩

theorem c5_bufio_sticky_error_witness :
    Bufio.write (fun _ => ⟨0, none⟩) 3 [1, 2]
        { cap := 4, data := [7], err := some (GoErr.sinkErr 3), w := 0,
          calls := 1, received := [9] } =
      some (0, 0, some (GoErr.sinkErr 3),
        { cap := 4, data := [7], err := some (GoErr.sinkErr 3), w := 0,
          calls := 1, received := [9] }) :=
  (c5_bufio_sticky_error (fun _ => ⟨0, none⟩) 2 [1, 2]
    { cap := 4, data := [7], err := some (GoErr.sinkErr 3), w := 0,
      calls := 1, received := [9] } (GoErr.sinkErr 3) 5 rfl).1

/-! ### Circular staging buffer (src/unnamed/part_005) -/

/-- Errors of the circular buffer: `ErrNoAvailWrite`, `ErrNoAvailRead`. -/
inductive BufErr where
  | noAvailWrite : BufErr
  | noAvailRead : BufErr
deriving DecidableEq, Repr

/-- Copy `p` into `l` starting at index `i` (Go `copy(l[i:], p)`): the
length of `l` is preserved and at most `l.length - i` bytes are copied. -/
def copyAt (l : List Nat) (i : Nat) (p : List Nat) : List Nat :=
  l.take i ++ p.take (l.length - i) ++ l.drop (i + p.length)

/-- The circular buffer `buffer` (src/unnamed/part_005 lines 21-40):
backing store `buf` of length `size`, consumer index `cons`, producer
index `prod`, and the `isFull` flag distinguishing full from empty when
`prod = cons`. -/
structure CircBuf where
  buf : List Nat
  size : Nat
  isFull : Bool
  cons : Nat
  prod : Nat
deriving DecidableEq, Repr

/-- `newBuffer(size)` (lines 35-40). -/
def newBuffer (size : Nat) : CircBuf :=
  { buf := List.replicate size 0, size := size, isFull := false,
    cons := 0, prod := 0 }

/-- `buffer.getAvailRead` (lines 153-168). -/
def CircBuf.getAvailRead (b : CircBuf) : Nat :=
  if b.prod = b.cons then (if b.isFull then b.size else 0)
  else if b.prod > b.cons then b.prod - b.cons
  else b.size - b.cons + b.prod

/-- `buffer.getAvailWrite` (lines 170-185). -/
def CircBuf.getAvailWrite (b : CircBuf) : Nat :=
  if b.prod = b.cons then (if b.isFull then 0 else b.size)
  else if b.prod < b.cons then b.cons - b.prod
  else b.size - b.prod + b.cons

/-- `buffer.reset` (lines 187-191). -/
def CircBuf.reset (b : CircBuf) : CircBuf :=
  { b with cons := 0, prod := 0, isFull := false }

/-- `buffer.Write` (lines 49-85). Returns the error and the new state; if
there is no available space it returns `ErrNoAvailWrite` and does nothing
(it never overwrites unread data). -/
def CircBuf.writeCore (b : CircBuf) (p : List Nat) : CircBuf :=
  -- copy p into the backing store and advance prod
  let b1 :=
    if b.prod ≥ b.cons then
      if b.size - b.prod ≥ p.length then
        { b with buf := copyAt b.buf b.prod p, prod := b.prod + p.length }
      else
        { b with
          buf := copyAt (copyAt b.buf b.prod (p.take (b.size - b.prod)))
            0 (p.drop (b.size - b.prod)),
          prod := p.length - (b.size - b.prod) }
    else
      { b with buf := copyAt b.buf b.prod p, prod := b.prod + p.length }
  -- wrap prod, then set isFull
  let b2 := if b1.prod = b1.size then { b1 with prod := 0 } else b1
  if b2.prod = b2.cons then { b2 with isFull := true } else b2

def CircBuf.write (b : CircBuf) (p : List Nat) : Option BufErr × CircBuf :=
  if p.length = 0 then (none, b)
  else
    if ¬ (b.getAvailWrite ≥ p.length) then (some BufErr.noAvailWrite, b)
    else (none, b.writeCore p)

/-- `buffer.read` (lines 95-120): read `n` bytes. Returns the error, the
bytes read, and the new state. -/
def CircBuf.read (b : CircBuf) (n : Nat) : Option BufErr × List Nat × CircBuf :=
  if n = 0 then (none, [], b)
  else
    if ¬ (b.getAvailRead ≥ n) then (some BufErr.noAvailRead, [], b)
    else
      let out :=
        if b.cons + n ≤ b.size then (b.buf.drop b.cons).take n
        else (b.buf.drop b.cons).take (b.size - b.cons) ++
          b.buf.take (n - (b.size - b.cons))
      (none, out, { b with cons := (b.cons + n) % b.size, isFull := false })

/-- `buffer.readAll` (lines 124-151): read everything available; the
deferred `reset` always runs. Returns Go's byte count, the bytes copied
out, and the new state. In the full case the code copies `b.buf` from
index 0 (not from `cons`). -/
def CircBuf.readAll (b : CircBuf) : Nat × List Nat × CircBuf :=
  if b.prod = b.cons then
    if b.isFull then (b.size, b.buf, b.reset) else (0, [], b.reset)
  else if b.prod > b.cons then
    (b.prod - b.cons, (b.buf.drop b.cons).take (b.prod - b.cons), b.reset)
  else
    (b.size - b.cons + b.prod,
      b.buf.drop b.cons ++ b.buf.take b.prod, b.reset)


/-! ### Theorems for the circular buffer claims -/

/-- C6 counterexample: on a full buffer, `buffer.Write` fails with
`ErrNoAvailWrite` and leaves the buffer unchanged — it does not overwrite
the oldest unread payload. -/
theorem c6_circbuf_write_full_rejects :
    (((newBuffer 2).write [1, 2]).2.write [9]).1 = some BufErr.noAvailWrite ∧
    (((newBuffer 2).write [1, 2]).2.write [9]).2 = ((newBuffer 2).write [1, 2]).2 := by
  decide

/-- C6 (amended): `buffer.Write` succeeds exactly when the payload fits in
the available write space; when it does not fit, the call is rejected with
`ErrNoAvailWrite` and the buffer state is unchanged (nothing is
overwritten; the call never blocks since it is a total function). -/
theorem c6_circbuf_write_reject_on_full (b : CircBuf) (p : List Nat) :
    ((b.write p).1 = none ↔ p.length ≤ b.getAvailWrite) ∧
    ((b.write p).1 ≠ none → (b.write p).2 = b) := by
  unfold CircBuf.write
  by_cases h0 : p.length = 0
  · simp [h0]
  · by_cases ha : b.getAvailWrite ≥ p.length
    · simp [h0, ha]
    · simp only [h0, ha, if_false, reduceIte, not_false_iff, if_true]
      exact ⟨by simp, fun _ => trivial⟩

theorem c6_circbuf_write_reject_on_full_witness :
    ((((newBuffer 2).write [1, 2]).2.write [9]).2 = ((newBuffer 2).write [1, 2]).2) :=
  (c6_circbuf_write_reject_on_full ((newBuffer 2).write [1, 2]).2 [9]).2 (by decide)

/-- C9: at the reachable state built by `write [1,2]; read 1; write [3,4,5]`
on a buffer of size 4 (which is full with `cons = 1`), `readAll` returns
the backing array from index 0, i.e. `[5,2,3,4]`, although the earliest
unread bytes in FIFO order are `[2,3,4,5]` — as `read` on the very same
state confirms. -/
theorem c9_circbuf_readAll_full_not_fifo :
    (((((((newBuffer 4).write [1, 2]).2.read 1).2.2).write [3, 4, 5]).2).readAll.2.1
        = [5, 2, 3, 4] ∧
    ((((((newBuffer 4).write [1, 2]).2.read 1).2.2).write [3, 4, 5]).2.read 4).2.1
        = [2, 3, 4, 5]) := by
  decide

/-! ### Configuration normalisation (src/config.go) -/

/-- `Config` (src/config.go lines 12-41). Size fields are unbounded
integers standing for Go `int64`/`int`. -/
structure Config where
  OutputPath : List Char
  MaxSize : Int
  MaxBackups : Int
  LocalTime : Bool
  BufSize : Int
  FileWriteSize : Int
  FlushSize : Int
  Developed : Bool
deriving DecidableEq, Repr

def kb : Int := 1024

def mb : Int := 1024 * 1024

def defaultBufSize : Int := 128 * mb

def defaultFileWriteSize : Int := 256 * kb

def defaultFlushSize : Int := mb

def defaultMaxSize : Int := 128 * mb

def defaultMaxBackups : Int := 8

/-- Two's-complement wrap of a Go `int64` arithmetic result into
`[-2^63, 2^63)`: Go signed integer overflow wraps around. -/
def wrap64 (n : Int) : Int :=
  (n + 9223372036854775808) % 18446744073709551616 - 9223372036854775808

/-- `alignToPage` (src/config.go lines 100-104):
`(n + pageSize - 1) &^ (pageSize - 1)` for `pageSize = 4096`. The sum is
int64 addition (it wraps); clearing the low 12 bits of the
two's-complement representation subtracts the nonnegative remainder
mod 4096. -/
def alignToPage (n : Int) : Int :=
  wrap64 (n + 4095) - wrap64 (n + 4095) % 4096

/-- `Config.adjust`, first phase (src/config.go lines 63-67); the scaling
to bytes is int64 multiplication, which wraps. -/
def adjMaxSize (c : Config) : Config :=
  if c.MaxSize ≤ 0 then { c with MaxSize := defaultMaxSize }
  else { c with MaxSize := wrap64 (c.MaxSize * mb) }

/-- `Config.adjust` (src/config.go lines 68-70). -/
def adjMaxBackups (c : Config) : Config :=
  if c.MaxBackups ≤ 0 then { c with MaxBackups := defaultMaxBackups } else c

/-- `Config.adjust` (src/config.go lines 72-76); wrapping int64 scaling. -/
def adjBufSize (c : Config) : Config :=
  if c.BufSize ≤ 0 then { c with BufSize := defaultBufSize }
  else { c with BufSize := wrap64 (c.BufSize * mb) }

/-- `Config.adjust` (src/config.go lines 77-81); wrapping int64 scaling. -/
def adjFileWriteSize (c : Config) : Config :=
  if c.FileWriteSize ≤ 0 then { c with FileWriteSize := defaultFileWriteSize }
  else { c with FileWriteSize := wrap64 (c.FileWriteSize * kb) }

/-- `Config.adjust` (src/config.go lines 82-86); wrapping int64 scaling. -/
def adjFlushSize (c : Config) : Config :=
  if c.FlushSize ≤ 0 then { c with FlushSize := defaultFlushSize }
  else { c with FlushSize := wrap64 (c.FlushSize * kb) }

/-- `Config.adjust` (src/config.go lines 88-92): the minimum-ratio check
against `FileWriteSize` (its products are wrapping int64 arithmetic);
on violation all three are reset to defaults. -/
def adjRatio (c : Config) : Config :=
  if wrap64 (c.BufSize * 1024) < wrap64 (2 * c.FileWriteSize) ∨
      c.FlushSize < wrap64 (2 * c.FileWriteSize)
  then { c with BufSize := defaultBufSize,
                FileWriteSize := defaultFileWriteSize,
                FlushSize := defaultFlushSize }
  else c

/-- `Config.adjust` (src/config.go lines 94-97): page alignment of
`MaxSize` and `FlushSize` outside developed mode. -/
def adjAlign (c : Config) : Config :=
  if ¬ c.Developed
  then { c with MaxSize := alignToPage c.MaxSize,
                FlushSize := alignToPage c.FlushSize }
  else c

/-- `Config.adjust` (src/config.go lines 61-98), as the composition of its
sequential phases. -/
def Config.adjust (c : Config) : Config :=
  adjAlign (adjRatio (adjFlushSize (adjFileWriteSize (adjBufSize
    (adjMaxBackups (adjMaxSize c))))))

/-! Phase lemmas for `Config.adjust`. The scaling phases wrap exactly as
Go int64 does, so positivity of their results holds only below the
overflow thresholds. -/

theorem alignToPage_pos {x : Int} (h : 0 < x) (hb : x ≤ 2 ^ 62) :
    0 < alignToPage x := by
  unfold alignToPage wrap64; omega

theorem alignToPage_dvd (x : Int) : (4096 : Int) ∣ alignToPage x := by
  unfold alignToPage wrap64; omega

theorem alignToPage_ge {x : Int} (h : 0 ≤ x) (hb : x ≤ 2 ^ 62) :
    x ≤ alignToPage x := by
  unfold alignToPage wrap64; omega

theorem adjMaxSize_MaxSize (c : Config) (hM : c.MaxSize ≤ 2 ^ 42) :
    0 < (adjMaxSize c).MaxSize ∧ (adjMaxSize c).MaxSize ≤ 2 ^ 62 := by
  unfold adjMaxSize defaultMaxSize mb wrap64
  split_ifs with h <;> simp <;> omega

theorem adjMid_MaxSize (c : Config) :
    (adjRatio (adjFlushSize (adjFileWriteSize (adjBufSize
      (adjMaxBackups c))))).MaxSize = c.MaxSize := by
  unfold adjRatio adjFlushSize adjFileWriteSize adjBufSize adjMaxBackups
  split_ifs <;> rfl

theorem adjMid_Developed (c : Config) :
    (adjRatio (adjFlushSize (adjFileWriteSize (adjBufSize
      (adjMaxBackups c))))).Developed = c.Developed := by
  unfold adjRatio adjFlushSize adjFileWriteSize adjBufSize adjMaxBackups
  split_ifs <;> rfl

theorem adjMaxSize_Developed (c : Config) :
    (adjMaxSize c).Developed = c.Developed := by
  unfold adjMaxSize; split_ifs <;> rfl

theorem adjPre_BufSize (c : Config) :
    (adjMaxBackups (adjMaxSize c)).BufSize = c.BufSize := by
  unfold adjMaxBackups adjMaxSize; split_ifs <;> rfl

theorem adjPre_FileWriteSize (c : Config) :
    (adjBufSize (adjMaxBackups (adjMaxSize c))).FileWriteSize
      = c.FileWriteSize := by
  unfold adjBufSize adjMaxBackups adjMaxSize; split_ifs <;> rfl

theorem adjPre_FlushSize (c : Config) :
    (adjFileWriteSize (adjBufSize (adjMaxBackups
      (adjMaxSize c)))).FlushSize = c.FlushSize := by
  unfold adjFileWriteSize adjBufSize adjMaxBackups adjMaxSize
  split_ifs <;> rfl

theorem adjFlushSize_FileWriteSize (c : Config) :
    (adjFlushSize c).FileWriteSize = c.FileWriteSize := by
  unfold adjFlushSize; split_ifs <;> rfl

theorem adjBufSize_BufSize (c : Config) (hB : c.BufSize ≤ 2 ^ 42) :
    0 < (adjBufSize c).BufSize ∧ (4096 : Int) ∣ (adjBufSize c).BufSize := by
  unfold adjBufSize defaultBufSize mb wrap64
  split_ifs with h <;> simp <;> omega

theorem adjFileWriteSize_FWS (c : Config) (hF : c.FileWriteSize ≤ 2 ^ 51) :
    0 ≤ (adjFileWriteSize c).FileWriteSize ∧
    (adjFileWriteSize c).FileWriteSize ≤ 2 ^ 62 - 1 := by
  unfold adjFileWriteSize defaultFileWriteSize kb wrap64
  split_ifs with h <;> simp <;> omega

theorem adjTail_BufSize (c : Config) :
    (adjRatio (adjFlushSize (adjFileWriteSize c))).BufSize = c.BufSize ∨
    (adjRatio (adjFlushSize (adjFileWriteSize c))).BufSize = defaultBufSize := by
  unfold adjRatio adjFlushSize adjFileWriteSize
  split_ifs <;> simp

theorem adjFlushSize_FlushSize (c : Config) (hS : c.FlushSize ≤ 2 ^ 51) :
    0 < (adjFlushSize c).FlushSize ∧ (adjFlushSize c).FlushSize ≤ 2 ^ 62 := by
  unfold adjFlushSize defaultFlushSize mb kb wrap64
  split_ifs with h <;> simp <;> omega

theorem adjRatio_FlushSize (c : Config) :
    (adjRatio c).FlushSize = c.FlushSize ∨
    (adjRatio c).FlushSize = defaultFlushSize := by
  unfold adjRatio; split_ifs <;> simp

theorem adjRatio_FlushSize_pos (c : Config) (h : 0 < c.FlushSize) :
    0 < (adjRatio c).FlushSize := by
  unfold adjRatio defaultFlushSize mb
  split_ifs <;> (try dsimp only []) <;> omega

theorem adjRatio_ratio (c : Config) (h1 : 0 ≤ c.FileWriteSize)
    (h2 : c.FileWriteSize ≤ 2 ^ 62 - 1) :
    2 * (adjRatio c).FileWriteSize ≤ (adjRatio c).FlushSize := by
  unfold adjRatio defaultFlushSize defaultFileWriteSize mb kb wrap64
  split_ifs with h <;> (try dsimp only []) <;> omega

theorem adjAlign_fields (c : Config) (h : c.Developed = false) :
    (adjAlign c).MaxSize = alignToPage c.MaxSize ∧
    (adjAlign c).FlushSize = alignToPage c.FlushSize ∧
    (adjAlign c).BufSize = c.BufSize ∧
    (adjAlign c).FileWriteSize = c.FileWriteSize := by
  unfold adjAlign; rw [if_pos (by simp [h])]; exact ⟨rfl, rfl, rfl, rfl⟩

/-- C2 counterexample: for the all-zero input configuration in
non-developed mode (everything defaulted), the normalised flush size
(1 MiB) is far below twice the normalised buffer size (128 MiB), so the
claimed `per-sync/flush ≥ 2 · buffer` inequality fails. -/
theorem c2_config_adjust_default_ratio_violated :
    ¬ (2 * (Config.adjust
        { OutputPath := [], MaxSize := 0, MaxBackups := 0, LocalTime := false,
          BufSize := 0, FileWriteSize := 0, FlushSize := 0,
          Developed := false }).BufSize ≤
      (Config.adjust
        { OutputPath := [], MaxSize := 0, MaxBackups := 0, LocalTime := false,
          BufSize := 0, FileWriteSize := 0, FlushSize := 0,
          Developed := false }).FlushSize) := by
  decide

/-- C2 (amended): for every input configuration in non-developed mode
whose size fields stay below the int64 overflow thresholds of the
byte/KB scalings (`MaxSize`, `BufSize` at most `2^42` MB and
`FileWriteSize`, `FlushSize` at most `2^51` KB), after `Config.adjust`
the max size, buffer size and flush size are positive multiples of
4096, and the flush size is at least twice `FileWriteSize` (the
file-write granularity) — not twice the buffer size. -/
theorem c2_config_adjust_invariants (c : Config) (h : c.Developed = false)
    (hM : c.MaxSize ≤ 2 ^ 42) (hB : c.BufSize ≤ 2 ^ 42)
    (hF : c.FileWriteSize ≤ 2 ^ 51) (hS : c.FlushSize ≤ 2 ^ 51) :
    0 < c.adjust.MaxSize ∧ (4096 : Int) ∣ c.adjust.MaxSize ∧
    0 < c.adjust.BufSize ∧ (4096 : Int) ∣ c.adjust.BufSize ∧
    0 < c.adjust.FlushSize ∧ (4096 : Int) ∣ c.adjust.FlushSize ∧
    2 * c.adjust.FileWriteSize ≤ c.adjust.FlushSize := by
  unfold Config.adjust
  have hdev : (adjRatio (adjFlushSize (adjFileWriteSize (adjBufSize
      (adjMaxBackups (adjMaxSize c)))))).Developed = false := by
    rw [adjMid_Developed, adjMaxSize_Developed, h]
  obtain ⟨a1, a2, a3, a4⟩ := adjAlign_fields _ hdev
  rw [a1, a2, a3, a4]
  obtain ⟨pM1, pM2⟩ := adjMaxSize_MaxSize c hM
  have hBuf := adjBufSize_BufSize (adjMaxBackups (adjMaxSize c))
    (by rw [adjPre_BufSize]; exact hB)
  have hFws := adjFileWriteSize_FWS (adjBufSize (adjMaxBackups (adjMaxSize c)))
    (by rw [adjPre_FileWriteSize]; exact hF)
  have hFls := adjFlushSize_FlushSize
    (adjFileWriteSize (adjBufSize (adjMaxBackups (adjMaxSize c))))
    (by rw [adjPre_FlushSize]; exact hS)
  have hFws2 : 0 ≤ (adjFlushSize (adjFileWriteSize (adjBufSize (adjMaxBackups
        (adjMaxSize c))))).FileWriteSize ∧
      (adjFlushSize (adjFileWriteSize (adjBufSize (adjMaxBackups
        (adjMaxSize c))))).FileWriteSize ≤ 2 ^ 62 - 1 := by
    rw [adjFlushSize_FileWriteSize]; exact hFws
  have hFls2 : 0 < (adjRatio (adjFlushSize (adjFileWriteSize (adjBufSize
        (adjMaxBackups (adjMaxSize c)))))).FlushSize ∧
      (adjRatio (adjFlushSize (adjFileWriteSize (adjBufSize (adjMaxBackups
        (adjMaxSize c)))))).FlushSize ≤ 2 ^ 62 := by
    refine ⟨adjRatio_FlushSize_pos _ hFls.1, ?_⟩
    rcases adjRatio_FlushSize (adjFlushSize (adjFileWriteSize (adjBufSize
      (adjMaxBackups (adjMaxSize c))))) with hq | hq <;> rw [hq]
    · exact hFls.2
    · unfold defaultFlushSize mb; omega
  refine ⟨?_, alignToPage_dvd _, ?_, ?_, ?_, alignToPage_dvd _, ?_⟩
  · exact alignToPage_pos (by rw [adjMid_MaxSize]; exact pM1)
      (by rw [adjMid_MaxSize]; exact pM2)
  · rcases adjTail_BufSize (adjBufSize (adjMaxBackups (adjMaxSize c)))
      with hb | hb <;> rw [hb]
    · exact hBuf.1
    · unfold defaultBufSize mb; omega
  · rcases adjTail_BufSize (adjBufSize (adjMaxBackups (adjMaxSize c)))
      with hb | hb <;> rw [hb]
    · exact hBuf.2
    · unfold defaultBufSize mb; omega
  · exact alignToPage_pos hFls2.1 hFls2.2
  · exact le_trans (adjRatio_ratio _ hFws2.1 hFws2.2)
      (alignToPage_ge (le_of_lt hFls2.1) hFls2.2)

theorem c2_config_adjust_invariants_witness :
    (0 : Int) ≤ 2 ^ 42 ∧ (0 : Int) ≤ 2 ^ 51 ∧
    0 < (Config.adjust
      { OutputPath := [], MaxSize := 0, MaxBackups := 0, LocalTime := false,
        BufSize := 0, FileWriteSize := 0, FlushSize := 0,
        Developed := false }).MaxSize :=
  ⟨by decide, by decide,
    (c2_config_adjust_invariants
      { OutputPath := [], MaxSize := 0, MaxBackups := 0, LocalTime := false,
        BufSize := 0, FileWriteSize := 0, FlushSize := 0,
        Developed := false } rfl (by decide) (by decide) (by decide)
      (by decide)).1⟩

/-! ### Backup set: a min-heap over a `Backup` slice
(src/backup.go together with Go's `container/heap` algorithms) -/

/-- `Backup` (src/backup.go lines 22-25): timestamp and file path. -/
structure Backup where
  ts : Int
  fp : List Char
deriving DecidableEq, Repr

instance : Inhabited Backup := ⟨⟨0, []⟩⟩

/-- Slice indexing `(*b)[i]`; out-of-range reads yield the default value
(they never occur in the verified uses). -/
def bGet (l : List Backup) (i : Nat) : Backup := l.getD i default

/-- `Backups.Less` (src/backup.go lines 30-32). -/
def bLess (l : List Backup) (i j : Nat) : Prop := (bGet l i).ts < (bGet l j).ts

instance (l : List Backup) (i j : Nat) : Decidable (bLess l i j) := by
  unfold bLess; infer_instance

/-- The in-range core of `Backups.Swap`: exchange entries `i` and `j`. -/
def lswap (l : List Backup) (i j : Nat) : List Backup :=
  (l.set i (bGet l j)).set j (bGet l i)

/-- `Backups.Swap` (src/backup.go lines 34-38): Go `int` indices with the
negative-index guard (`heap.Pop` on an empty heap calls `Swap(0, -1)`). -/
def bSwap (l : List Backup) (i j : Int) : List Backup :=
  if 0 ≤ i ∧ 0 ≤ j then lswap l i.toNat j.toNat else l

/-- `container/heap.up` (Go standard library), acting on the `Backups`
slice through its `Less` and (in-range) `Swap`. -/
def heapUp (l : List Backup) (j : Nat) : List Backup :=
  if (j - 1) / 2 = j ∨ ¬ bLess l j ((j - 1) / 2) then l
  else heapUp (lswap l ((j - 1) / 2) j) ((j - 1) / 2)
termination_by j
decreasing_by simp_wf; omega

/-- `container/heap.down` (Go standard library) over the first `n`
entries; `n` is a Go `int` and equals `-1` when popping from an empty
heap (the Go `j1 < 0` overflow test cannot fire in the unbounded model). -/
def heapDown (l : List Backup) (i : Nat) (n : Int) : List Backup :=
  if h : (2 * (i : Int) + 1) < n then
    if hj : ((2 * (i : Int) + 2) < n ∧ bLess l (2 * i + 2) (2 * i + 1)) then
      if bLess l (2 * i + 2) i then heapDown (lswap l i (2 * i + 2)) (2 * i + 2) n
      else l
    else
      if bLess l (2 * i + 1) i then heapDown (lswap l i (2 * i + 1)) (2 * i + 1) n
      else l
  else l
termination_by (n - i).toNat
decreasing_by all_goals (simp_wf; omega)

/-- `container/heap.Push` (Go): `Backups.Push` appends
(src/backup.go lines 52-54), then the element is sifted up. -/
def heapPush (l : List Backup) (x : Backup) : List Backup :=
  heapUp (l ++ [x]) l.length

/-- `container/heap.Pop` (Go) combined with `Backups.Pop`
(src/backup.go lines 44-50): swap the root with the last entry (through
the guarded `Swap`), sift down over the first `len-1` entries, then
`Backups.Pop` removes and returns the last entry when the slice is
nonempty. -/
def heapPop (l : List Backup) : Option Backup × List Backup :=
  match (heapDown (bSwap l 0 ((l.length : Int) - 1)) 0
      ((l.length : Int) - 1)).getLast? with
  | some v => (some v,
      (heapDown (bSwap l 0 ((l.length : Int) - 1)) 0
        ((l.length : Int) - 1)).dropLast)
  | none => (none,
      heapDown (bSwap l 0 ((l.length : Int) - 1)) 0 ((l.length : Int) - 1))

/-- The binary min-heap ordering property on a `Backups` slice. -/
def IsMinHeap (l : List Backup) : Prop :=
  ∀ j, 0 < j → j < l.length → (bGet l ((j - 1) / 2)).ts ≤ (bGet l j).ts

/-! Basic facts about `lswap` and `bGet`. -/

theorem lswap_length (l : List Backup) (i j : Nat) :
    (lswap l i j).length = l.length := by
  simp [lswap]

theorem bGet_lt {l : List Backup} {k : Nat} (h : k < l.length) :
    bGet l k = l[k] := List.getD_eq_getElem l default h

theorem bGet_lswap (l : List Backup) (i j k : Nat) (hi : i < l.length)
    (hj : j < l.length) :
    bGet (lswap l i j) k =
      if k = j then bGet l i else if k = i then bGet l j else bGet l k := by
  by_cases hk : k < l.length
  · rw [bGet_lt (by simp [lswap_length, hk]), bGet_lt hk]
    simp only [lswap]
    rw [List.getElem_set, List.getElem_set]
    rcases eq_or_ne k j with rfl | hkj
    · simp [bGet_lt hi]
    · rcases eq_or_ne k i with rfl | hki
      · simp [Ne.symm hkj, hkj, bGet_lt hj]
      · simp [Ne.symm hkj, Ne.symm hki, hkj, hki]
  · have hkj : k ≠ j := by omega
    have hki : k ≠ i := by omega
    simp only [hkj, hki, if_false, reduceIte]
    unfold bGet
    rw [List.getD_eq_getElem?_getD, List.getD_eq_getElem?_getD]
    rw [List.getElem?_eq_none (by simp [lswap_length]; omega),
      List.getElem?_eq_none (by omega)]

theorem lswap_perm (l : List Backup) (i j : Nat) (hi : i < l.length)
    (hj : j < l.length) : List.Perm (lswap l i j) l := by
  unfold lswap
  rw [bGet_lt hi, bGet_lt hj, List.perm_iff_count]
  intro a
  by_cases hij : i = j
  · subst hij
    have hcnt : 1 ≤ l.count l[i] := List.count_pos_iff.mpr (List.getElem_mem hi)
    rw [List.count_set _ _ _ _ (by simpa using hi),
      List.count_set _ _ _ _ (by simpa using hi)]
    simp only [List.getElem_set, ite_self]
    by_cases e1 : l[i] = a
    · subst e1; simp
    · simp [e1]
  · rw [List.count_set _ _ _ _ (by simpa using hj),
      List.count_set _ _ _ _ (by simpa using hi)]
    simp only [List.getElem_set, ite_self]
    have d1 : 1 ≤ l.count l[i] := List.count_pos_iff.mpr (List.getElem_mem hi)
    have d2 : 1 ≤ l.count l[j] := List.count_pos_iff.mpr (List.getElem_mem hj)
    by_cases e1 : l[i] = a <;> by_cases e2 : l[j] = a
    · subst e1; rw [← e2] at *; simp_all
    · subst e1; simp [e2, beq_iff_eq]
    · subst e2; simp [e1, beq_iff_eq]
    · simp [e1, e2, beq_iff_eq]

theorem bGet_append_left {l : List Backup} {x : Backup} {k : Nat}
    (h : k < l.length) : bGet (l ++ [x]) k = bGet l k := by
  rw [bGet_lt (by simp; omega), bGet_lt h, List.getElem_append_left]

theorem bGet_append_right (l : List Backup) (x : Backup) :
    bGet (l ++ [x]) l.length = x := by
  rw [bGet_lt (by simp)]
  simp

/-! Sift-up correctness. -/

/-- Invariant of Go's sift-up at hole `j`: the heap ordering holds on
every edge not entering `j`, and the children of `j` are bounded below by
`j`'s parent. -/
def UpInv (l : List Backup) (j : Nat) : Prop :=
  (∀ k, 0 < k → k < l.length → k ≠ j →
    (bGet l ((k - 1) / 2)).ts ≤ (bGet l k).ts) ∧
  (0 < j → ∀ k, 0 < k → k < l.length → (k - 1) / 2 = j →
    (bGet l ((j - 1) / 2)).ts ≤ (bGet l k).ts)

theorem heapUp_heap : ∀ {j : Nat} {l : List Backup}, j < l.length →
    UpInv l j → IsMinHeap (heapUp l j) := by
  intro j
  induction j using Nat.strong_induction_on with
  | _ j ih =>
    intro l hj hinv
    rw [heapUp]
    by_cases hstop : (j - 1) / 2 = j ∨ ¬ bLess l j ((j - 1) / 2)
    · rw [if_pos hstop]
      rcases hstop with h0 | hge
      · have hj0 : j = 0 := by omega
        subst hj0
        intro k hk hklen
        exact hinv.1 k hk hklen (by omega)
      · intro k hk hklen
        rcases eq_or_ne k j with rfl | hkj
        · unfold bLess at hge; omega
        · exact hinv.1 k hk hklen hkj
    · rw [if_neg hstop]
      push_neg at hstop
      obtain ⟨hne, hlt⟩ := hstop
      have hj0 : 0 < j := by omega
      have hilt : (j - 1) / 2 < j := by omega
      have hilen : (j - 1) / 2 < l.length := by omega
      unfold bLess at hlt
      apply ih _ hilt (by rw [lswap_length]; omega)
      constructor
      · intro k hk hklen hki
        rw [lswap_length] at hklen
        rw [bGet_lswap _ _ _ _ hilen hj, bGet_lswap _ _ _ _ hilen hj]
        rcases eq_or_ne k j with rfl | hkj
        · -- k = j: the swapped edge
          have hpi : (k - 1) / 2 ≠ k := by omega
          rw [if_pos rfl, if_neg hpi, if_pos rfl]
          omega
        · have hknej : k ≠ j := hkj
          rw [if_neg hkj]
          by_cases hpj : (k - 1) / 2 = j
          · -- k is a child of j (j ≠ hole i): parent slot now holds l[i]
            have : k ≠ (j - 1) / 2 := by omega
            rw [if_neg hki, if_pos hpj]
            exact hinv.2 hj0 k hk hklen hpj
          · by_cases hpi : (k - 1) / 2 = (j - 1) / 2
            · -- k is a sibling of j under the hole: parent now holds l[j]
              rw [if_neg hki, if_neg hpj, if_pos hpi]
              have h2 := hinv.1 k hk hklen hknej
              rw [hpi] at h2
              omega
            · rw [if_neg hki, if_neg hpj, if_neg hpi]
              exact hinv.1 k hk hklen hknej
      · intro hipos k hk hklen hpk
        rw [lswap_length] at hklen
        have hglt : ((j - 1) / 2 - 1) / 2 < (j - 1) / 2 := by omega
        have hgne_j : ((j - 1) / 2 - 1) / 2 ≠ j := by omega
        have hgne_i : ((j - 1) / 2 - 1) / 2 ≠ (j - 1) / 2 := by omega
        rw [bGet_lswap _ _ _ _ hilen hj, bGet_lswap _ _ _ _ hilen hj]
        rw [if_neg hgne_j, if_neg hgne_i]
        have hgi := hinv.1 ((j - 1) / 2) hipos hilen (by omega)
        rcases eq_or_ne k j with rfl | hkj
        · rw [if_pos rfl]
          exact hgi
        · have hkne_i : k ≠ (j - 1) / 2 := by omega
          rw [if_neg hkj, if_neg hkne_i]
          have h2 := hinv.1 k hk hklen hkj
          rw [hpk] at h2
          omega

theorem heapUp_perm : ∀ {j : Nat} {l : List Backup}, j < l.length →
    List.Perm (heapUp l j) l := by
  intro j
  induction j using Nat.strong_induction_on with
  | _ j ih =>
    intro l hj
    rw [heapUp]
    by_cases hstop : (j - 1) / 2 = j ∨ ¬ bLess l j ((j - 1) / 2)
    · rw [if_pos hstop]
    · rw [if_neg hstop]
      have hj0 : 0 < j := by omega
      exact List.Perm.trans
        (ih _ (by omega) (by rw [lswap_length]; omega))
        (lswap_perm l _ _ (by omega) hj)

theorem heapUp_length {j : Nat} {l : List Backup} (hj : j < l.length) :
    (heapUp l j).length = l.length :=
  (heapUp_perm hj).length_eq

/-- `heap.Push` on a valid heap yields a valid heap. -/
theorem heapPush_heap {l : List Backup} (h : IsMinHeap l) (x : Backup) :
    IsMinHeap (heapPush l x) := by
  unfold heapPush
  apply heapUp_heap (by simp)
  constructor
  · intro k hk hklen hkj
    simp only [List.length_append, List.length_cons, List.length_nil] at hklen
    have hkl : k < l.length := by omega
    rw [bGet_append_left hkl, bGet_append_left (by omega)]
    exact h k hk hkl
  · intro hl0 k hk hklen hpk
    simp only [List.length_append, List.length_cons, List.length_nil] at hklen
    omega

theorem heapPush_perm (l : List Backup) (x : Backup) :
    List.Perm (heapPush l x) (l ++ [x]) :=
  heapUp_perm (by simp)

/-! Sift-down correctness. -/

/-- Invariant of Go's sift-down at hole `i` over the region `[0, n)`. -/
def DownInv (l : List Backup) (n : Int) (i : Nat) : Prop :=
  (∀ k : Nat, 0 < k → (k : Int) < n → (k - 1) / 2 ≠ i →
    (bGet l ((k - 1) / 2)).ts ≤ (bGet l k).ts) ∧
  (0 < i → ∀ k : Nat, 0 < k → (k : Int) < n → (k - 1) / 2 = i →
    (bGet l ((i - 1) / 2)).ts ≤ (bGet l k).ts)

/-- Heap ordering restricted to the region `[0, n)`. -/
def HeapOn (l : List Backup) (n : Int) : Prop :=
  ∀ k : Nat, 0 < k → (k : Int) < n → (bGet l ((k - 1) / 2)).ts ≤ (bGet l k).ts

theorem downInv_stop {l : List Backup} {n : Int} {i : Nat}
    (hinv : DownInv l n i)
    (hc : ∀ c : Nat, (c = 2 * i + 1 ∨ c = 2 * i + 2) → (c : Int) < n →
      (bGet l i).ts ≤ (bGet l c).ts) :
    HeapOn l n := by
  intro k hk hkn
  by_cases hp : (k - 1) / 2 = i
  · have : k = 2 * i + 1 ∨ k = 2 * i + 2 := by omega
    have := hc k this hkn
    rw [hp]; exact this
  · exact hinv.1 k hk hkn hp

theorem downInv_step {l : List Backup} {n : Int} {i j : Nat}
    (hlen : n ≤ (l.length : Int)) (hinv : DownInv l n i)
    (hj : j = 2 * i + 1 ∨ j = 2 * i + 2) (hjn : (j : Int) < n)
    (hlt : (bGet l j).ts < (bGet l i).ts)
    (hmin : ∀ c : Nat, (c = 2 * i + 1 ∨ c = 2 * i + 2) → (c : Int) < n →
      (bGet l j).ts ≤ (bGet l c).ts) :
    DownInv (lswap l i j) n j := by
  have hjlen : j < l.length := by omega
  have hilen : i < l.length := by omega
  have hij : i ≠ j := by omega
  have hparentj : (j - 1) / 2 = i := by omega
  constructor
  · intro k hk hkn hpk
    rw [bGet_lswap _ _ _ _ hilen hjlen, bGet_lswap _ _ _ _ hilen hjlen]
    rcases eq_or_ne k j with rfl | hkj
    · -- the swapped edge i -> j
      rw [if_pos rfl, hparentj, if_neg hij, if_pos rfl]
      omega
    · rw [if_neg hkj]
      rcases eq_or_ne k i with rfl | hki
      · -- edge into the old hole
        have hk0 : 0 < k := hk
        have hg_ne_j : (k - 1) / 2 ≠ j := by omega
        have hg_ne_k : (k - 1) / 2 ≠ k := by omega
        rw [if_pos rfl, if_neg hg_ne_j, if_neg hg_ne_k]
        exact hinv.2 hk0 j (by omega) hjn hparentj
      · by_cases hpi : (k - 1) / 2 = i
        · -- k is the sibling of j
          have : k = 2 * i + 1 ∨ k = 2 * i + 2 := by omega
          rw [if_neg hki, if_neg hpk, if_pos hpi]
          exact hmin k this hkn
        · rw [if_neg hki, if_neg hpi, if_neg hpk]
          exact hinv.1 k hk hkn hpi
  · intro hj0 k hk hkn hpk
    have hkne_i : k ≠ i := by omega
    have hkne_j : k ≠ j := by omega
    rw [bGet_lswap _ _ _ _ hilen hjlen, bGet_lswap _ _ _ _ hilen hjlen]
    rw [hparentj, if_neg hij, if_pos rfl, if_neg hkne_j, if_neg hkne_i]
    have := hinv.1 k hk hkn (by omega)
    rw [hpk] at this
    omega

theorem heapDown_heapOn : ∀ {l : List Backup} {i : Nat} {n : Int},
    n ≤ (l.length : Int) → DownInv l n i → HeapOn (heapDown l i n) n := by
  intro l i n
  induction l, i, n using heapDown.induct with
  | case1 l i n h hj hlt ih =>
    intro hlen hinv
    rw [heapDown, dif_pos h, dif_pos hj, if_pos hlt]
    unfold bLess at hj hlt
    refine ih (by rw [lswap_length]; exact hlen) ?_
    exact downInv_step hlen hinv (Or.inr rfl) (by exact_mod_cast hj.1) hlt
      (by
        intro c hc hcn
        rcases hc with rfl | rfl
        · omega
        · omega)
  | case2 l i n h hj hnlt =>
    intro hlen hinv
    rw [heapDown, dif_pos h, dif_pos hj, if_neg hnlt]
    unfold bLess at hj hnlt
    apply downInv_stop hinv
    intro c hc hcn
    rcases hc with rfl | rfl
    · omega
    · omega
  | case3 l i n h hj hlt ih =>
    intro hlen hinv
    rw [heapDown, dif_pos h, dif_neg hj, if_pos hlt]
    unfold bLess at hlt
    refine ih (by rw [lswap_length]; exact hlen) ?_
    refine downInv_step hlen hinv (Or.inl rfl) (by exact_mod_cast h) hlt ?_
    intro c hc hcn
    rcases hc with rfl | rfl
    · omega
    · -- c = 2i+2 in region, and j1 was chosen: l[j1] <= l[j2]
      have : ¬ bLess l (2 * i + 2) (2 * i + 1) := by
        intro hb; exact hj ⟨by exact_mod_cast hcn, hb⟩
      unfold bLess at this
      omega
  | case4 l i n h hj hnlt =>
    intro hlen hinv
    rw [heapDown, dif_pos h, dif_neg hj, if_neg hnlt]
    unfold bLess at hnlt
    apply downInv_stop hinv
    intro c hc hcn
    rcases hc with rfl | rfl
    · omega
    · have : ¬ bLess l (2 * i + 2) (2 * i + 1) := by
        intro hb; exact hj ⟨by exact_mod_cast hcn, hb⟩
      unfold bLess at this
      omega
  | case5 l i n h =>
    intro hlen hinv
    rw [heapDown, dif_neg h]
    apply downInv_stop hinv
    intro c hc hcn
    rcases hc with rfl | rfl <;> omega

theorem heapDown_length : ∀ {l : List Backup} {i : Nat} {n : Int},
    (heapDown l i n).length = l.length := by
  intro l i n
  induction l, i, n using heapDown.induct with
  | case1 l i n h hj hlt ih =>
    rw [heapDown, dif_pos h, dif_pos hj, if_pos hlt]
    rw [ih, lswap_length]
  | case2 l i n h hj hnlt =>
    rw [heapDown, dif_pos h, dif_pos hj, if_neg hnlt]
  | case3 l i n h hj hlt ih =>
    rw [heapDown, dif_pos h, dif_neg hj, if_pos hlt]
    rw [ih, lswap_length]
  | case4 l i n h hj hnlt =>
    rw [heapDown, dif_pos h, dif_neg hj, if_neg hnlt]
  | case5 l i n h =>
    rw [heapDown, dif_neg h]

theorem heapDown_perm : ∀ {l : List Backup} {i : Nat} {n : Int},
    n ≤ (l.length : Int) → List.Perm (heapDown l i n) l := by
  intro l i n
  induction l, i, n using heapDown.induct with
  | case1 l i n h hj hlt ih =>
    intro hlen
    rw [heapDown, dif_pos h, dif_pos hj, if_pos hlt]
    exact List.Perm.trans (ih (by rw [lswap_length]; exact hlen))
      (lswap_perm l _ _ (by omega) (by omega))
  | case2 l i n h hj hnlt =>
    intro hlen
    rw [heapDown, dif_pos h, dif_pos hj, if_neg hnlt]
  | case3 l i n h hj hlt ih =>
    intro hlen
    rw [heapDown, dif_pos h, dif_neg hj, if_pos hlt]
    exact List.Perm.trans (ih (by rw [lswap_length]; exact hlen))
      (lswap_perm l _ _ (by omega) (by omega))
  | case4 l i n h hj hnlt =>
    intro hlen
    rw [heapDown, dif_pos h, dif_neg hj, if_neg hnlt]
  | case5 l i n h =>
    intro hlen
    rw [heapDown, dif_neg h]

/-- Sift-down never touches entries at positions `≥ n`. -/
theorem heapDown_untouched : ∀ {l : List Backup} {i : Nat} {n : Int},
    n ≤ (l.length : Int) → ∀ k : Nat, n ≤ (k : Int) →
    bGet (heapDown l i n) k = bGet l k := by
  intro l i n
  induction l, i, n using heapDown.induct with
  | case1 l i n h hj hlt ih =>
    intro hlen k hk
    rw [heapDown, dif_pos h, dif_pos hj, if_pos hlt]
    rw [ih (by rw [lswap_length]; exact hlen) k hk]
    rw [bGet_lswap _ _ _ _ (by omega) (by omega)]
    rw [if_neg (by omega), if_neg (by omega)]
  | case2 l i n h hj hnlt =>
    intro hlen k hk
    rw [heapDown, dif_pos h, dif_pos hj, if_neg hnlt]
  | case3 l i n h hj hlt ih =>
    intro hlen k hk
    rw [heapDown, dif_pos h, dif_neg hj, if_pos hlt]
    rw [ih (by rw [lswap_length]; exact hlen) k hk]
    rw [bGet_lswap _ _ _ _ (by omega) (by omega)]
    rw [if_neg (by omega), if_neg (by omega)]
  | case4 l i n h hj hnlt =>
    intro hlen k hk
    rw [heapDown, dif_pos h, dif_neg hj, if_neg hnlt]
  | case5 l i n h =>
    intro hlen k hk
    rw [heapDown, dif_neg h]

/-- In a min-heap the root is a lower bound for every entry. -/
theorem root_min {l : List Backup} (h : IsMinHeap l) :
    ∀ k, k < l.length → (bGet l 0).ts ≤ (bGet l k).ts := by
  intro k
  induction k using Nat.strong_induction_on with
  | _ k ih =>
    intro hk
    rcases Nat.eq_zero_or_pos k with rfl | hk0
    · omega
    · have hp := h k hk0 hk
      have := ih ((k - 1) / 2) (by omega) (by omega)
      omega

/-- Root lower bound, membership form. -/
theorem root_min_mem {l : List Backup} (h : IsMinHeap l) :
    ∀ x ∈ l, (bGet l 0).ts ≤ x.ts := by
  intro x hx
  obtain ⟨k, hk, rfl⟩ := List.mem_iff_getElem.mp hx
  rw [← bGet_lt hk]
  exact root_min h k hk

/-- Helper: `bGet` through `dropLast`. -/
theorem bGet_dropLast {l : List Backup} {k : Nat} (h : k < l.length - 1) :
    bGet l.dropLast k = bGet l k := by
  rw [bGet_lt (by simp [List.length_dropLast]; omega), bGet_lt (by omega),
    List.getElem_dropLast]

/-- Full specification of `heap.Pop` on a nonempty valid heap: it returns
the root (a minimal element), and leaves a valid heap holding the
remaining entries. -/
theorem heapPop_spec {l : List Backup} (hne : l ≠ []) (h : IsMinHeap l) :
    (heapPop l).1 = some (bGet l 0) ∧
    IsMinHeap (heapPop l).2 ∧
    (heapPop l).2.length = l.length - 1 ∧
    List.Perm ((heapPop l).2 ++ [bGet l 0]) l := by
  have hlen1 : 1 ≤ l.length := by
    rcases l with _ | _
    · exact absurd rfl hne
    · simp
  have hsw : bSwap l 0 ((l.length : Int) - 1) = lswap l 0 (l.length - 1) := by
    unfold bSwap
    rw [if_pos ⟨le_refl 0, by omega⟩]
    congr 1
    omega
  have hL1len : (lswap l 0 (l.length - 1)).length = l.length := lswap_length ..
  have hinv : DownInv (lswap l 0 (l.length - 1)) ((l.length : Int) - 1) 0 := by
    constructor
    · intro k hk hkn hpk
      have hkm : k < l.length - 1 := by omega
      rw [bGet_lswap _ _ _ _ (by omega) (by omega),
        bGet_lswap _ _ _ _ (by omega) (by omega)]
      rw [if_neg (by omega), if_neg (by omega), if_neg (by omega),
        if_neg (by omega)]
      exact h k hk (by omega)
    · intro h0; omega
  have hHO := heapDown_heapOn (by omega) hinv
  set l2 := heapDown (lswap l 0 (l.length - 1)) 0 ((l.length : Int) - 1)
    with hl2
  have hl2len : l2.length = l.length := by
    rw [hl2, heapDown_length, hL1len]
  have hlast : bGet l2 (l.length - 1) = bGet l 0 := by
    rw [hl2, heapDown_untouched (by omega) _ (by omega)]
    rw [bGet_lswap _ _ _ _ (by omega) (by omega), if_pos rfl]
  have hl2ne : l2 ≠ [] := by
    intro hc; rw [hc] at hl2len; simp at hl2len; omega
  have hgl : l2.getLast? = some (bGet l 0) := by
    rw [List.getLast?_eq_getElem?, hl2len,
      List.getElem?_eq_getElem (by omega)]
    rw [← bGet_lt (by omega), hlast]
  have hpop : heapPop l = (some (bGet l 0), l2.dropLast) := by
    unfold heapPop
    rw [hsw, ← hl2, hgl]
  rw [hpop]
  refine ⟨rfl, ?_, by simp [List.length_dropLast, hl2len], ?_⟩
  · intro k hk hklen
    rw [List.length_dropLast, hl2len] at hklen
    rw [bGet_dropLast (by omega), bGet_dropLast (by omega)]
    exact hHO k hk (by omega)
  · have hgl2 : l2.getLast hl2ne = bGet l 0 := by
      rw [List.getLast_eq_getElem, ← bGet_lt (by omega), hl2len, hlast]
    have he : l2.dropLast ++ [bGet l 0] = l2 := by
      rw [← hgl2]; exact List.dropLast_append_getLast hl2ne
    rw [he, hl2]
    exact List.Perm.trans (heapDown_perm (by omega))
      (lswap_perm _ _ _ (by omega) (by omega))

/-- The backup-set part of `output.open` (src/output.go lines 45-60):
when the log file exists it is renamed to a fresh backup path, the new
descriptor is pushed into the heap, and if the heap now exceeds
`maxBackups` one descriptor is popped and its file deleted. The
filesystem effects (rename, delete) are abstracted away; the function
returns the new backup set and the pruned descriptor, if any. -/
def openBackups (bs : List Backup) (exist : Bool) (nb : Backup)
    (maxB : Nat) : List Backup × Option Backup :=
  if exist then
    if maxB < (heapPush bs nb).length then
      ((heapPop (heapPush bs nb)).2, (heapPop (heapPush bs nb)).1)
    else (heapPush bs nb, none)
  else (bs, none)

/-- C3: starting from a backup set holding at most `maxB` descriptors
(with the heap ordering that `Backups.list` and previous `open()` calls
establish), one `open()` leaves at most `maxB` descriptors and a valid
heap — so the bound holds after every `open()` of any sequence — and
whenever a descriptor is pruned it is one with the smallest `ts` of the
set present at prune time (the old set plus the new backup), and exactly
that descriptor is removed. -/
theorem c3_backups_open_retention (bs : List Backup) (e : Bool) (nb : Backup)
    (maxB : Nat) (hheap : IsMinHeap bs) (hlen : bs.length ≤ maxB) :
    (openBackups bs e nb maxB).1.length ≤ maxB ∧
    IsMinHeap (openBackups bs e nb maxB).1 ∧
    (∀ v, (openBackups bs e nb maxB).2 = some v →
      v.ts ≤ nb.ts ∧ (∀ x ∈ bs, v.ts ≤ x.ts) ∧
      List.Perm ((openBackups bs e nb maxB).1 ++ [v]) (bs ++ [nb])) := by
  unfold openBackups
  cases e with
  | false =>
    simp only [Bool.false_eq_true, if_false, reduceIte]
    exact ⟨hlen, hheap, by intro v hv; simp at hv⟩
  | true =>
    simp only [if_true, reduceIte]
    have hpushlen : (heapPush bs nb).length = bs.length + 1 :=
      (heapPush_perm bs nb).length_eq.trans (by simp)
    have hpushheap : IsMinHeap (heapPush bs nb) := heapPush_heap hheap nb
    by_cases hover : maxB < (heapPush bs nb).length
    · rw [if_pos hover]
      have hne : heapPush bs nb ≠ [] := by
        intro hc; rw [hc] at hpushlen; simp at hpushlen
      obtain ⟨p1, p2, p3, p4⟩ := heapPop_spec hne hpushheap
      dsimp only
      refine ⟨by omega, p2, ?_⟩
      intro v hv
      rw [p1] at hv
      injection hv with hv
      subst hv
      have hmin := root_min_mem hpushheap
      have hmem : ∀ x ∈ bs ++ [nb], (bGet (heapPush bs nb) 0).ts ≤ x.ts := by
        intro x hx
        exact hmin x ((heapPush_perm bs nb).mem_iff.mpr hx)
      refine ⟨hmem nb (by simp), fun x hx => hmem x (by simp [hx]), ?_⟩
      exact List.Perm.trans p4 (heapPush_perm bs nb)
    · rw [if_neg hover]
      dsimp only
      exact ⟨by omega, hpushheap, by intro v hv; simp at hv⟩

theorem c3_backups_open_retention_witness :
    (openBackups [⟨3, []⟩, ⟨7, []⟩] true ⟨1, []⟩ 2).1.length ≤ 2 :=
  (c3_backups_open_retention [⟨3, []⟩, ⟨7, []⟩] true ⟨1, []⟩ 2
    (by
      intro j hj hlen
      simp only [List.length_cons, List.length_nil] at hlen
      have hj1 : j = 1 := by omega
      subst hj1
      decide)
    (by simp)).1

/-- C10: `heap.Pop` on an empty `Backups` heap returns `nil` and leaves
the heap empty (`Backups.Pop` is guarded by the length check), and
`Backups.Swap` is a no-op whenever either index is negative — as happens
when `heap.Pop` swaps indices `0` and `-1` on an empty heap. -/
theorem c10_backups_pop_empty_safe :
    heapPop ([] : List Backup) = (none, []) ∧
    ∀ (l : List Backup) (i j : Int), i < 0 ∨ j < 0 → bSwap l i j = l := by
  constructor
  · simp [heapPop, bSwap, heapDown]
  · intro l i j hij
    unfold bSwap
    rw [if_neg (by omega)]

theorem c10_backups_pop_empty_safe_witness :
    bSwap [⟨5, []⟩] 0 (-1) = [⟨5, []⟩] :=
  c10_backups_pop_empty_safe.2 [⟨5, []⟩] 0 (-1) (Or.inr (by omega))

/-! ### Rotation hot path and sync loop
(src/logro.go, third revision: lines 624-900 of the concatenation) -/

/-- `syncJob` (src/logro.go lines 860-864). -/
structure SyncJob where
  f : Nat
  size : Int
  isOld : Bool
deriving DecidableEq, Repr

/-- State of a `Rotation` as far as the write path observes it
(src/logro.go lines 648-668): the running flag, the buffered writer, the
current output file handle (handles are numbered), the `fileWritten` and
`dirty` counters, and the queue of emitted sync jobs. `opens` counts the
`open()` calls made so far and indexes the filesystem oracle; `nextF`
numbers the file handle a successful `open()` installs. -/
structure RotState where
  isRunning : Bool
  buf : Bufio
  f : Nat
  fileWritten : Int
  dirty : Int
  syncJobs : List SyncJob
  opens : Nat
  nextF : Nat
deriving DecidableEq, Repr

/-- `Rotation.open` (src/logro.go lines 711-747) with the filesystem
(rename, backup pruning, create) abstracted into the success oracle
`openSched`: on success a fresh file handle replaces the current one. -/
def rotOpen (openSched : Nat → Bool) (s : RotState) : Option GoErr × RotState :=
  if openSched s.opens then
    (none, { s with opens := s.opens + 1, f := s.nextF, nextF := s.nextF + 1 })
  else (some GoErr.openErr, { s with opens := s.opens + 1 })

/-- `Rotation.Write` (src/logro.go lines 761-801): no-op when closed;
otherwise write through `bufIO`, account forwarded bytes into `dirty` and
`fileWritten`, emit a flush job at `PerSyncSize`, and at `MaxSize` reset
`fileWritten`, emit a retire job for the old file, reopen, and reset the
buffered writer onto the new file. Errors from the buffered writer or
from `open()` are returned to the caller. -/
def rotationWrite (sched : Nat → SinkResp) (openSched : Nat → Bool)
    (maxSize perSync : Int) (fuel : Nat) (p : List Nat) (s : RotState) :
    Option (Nat × Option GoErr × RotState) :=
  if s.isRunning = false then some (0, none, s)
  else
    match Bufio.write sched fuel p s.buf with
    | none => none
    | some (written, _, some e, b') =>
      some (written, some e, { s with buf := b' })
    | some (written, fw, none, b') =>
      match (if perSync ≤ s.dirty + fw then
          { s with
            buf := b',
            fileWritten := s.fileWritten + fw,
            dirty := 0,
            syncJobs := s.syncJobs ++ [⟨s.f, s.dirty + fw, false⟩] }
        else
          { s with
            buf := b',
            fileWritten := s.fileWritten + fw,
            dirty := s.dirty + fw }) with
      | s2 =>
        if maxSize ≤ s2.fileWritten then
          match rotOpen openSched
              { s2 with
                fileWritten := 0,
                syncJobs := s2.syncJobs ++ [⟨s2.f, 0, true⟩] } with
          | (some e, s4) => some (written, some e, s4)
          | (none, s4) =>
            some (written, none, { s4 with buf := s4.buf.reset s4.f })
        else some (written, none, s2)

/-- One filesystem hint/action issued by the sync loop. -/
inductive FSAct where
  | flushHint (f : Nat) (offset size : Int)
  | dropCache (f : Nat) (offset size : Int)
  | closeFile (f : Nat)
deriving DecidableEq, Repr

/-- The local state of `Rotation.syncLoop` (src/logro.go lines 866-900):
pending byte count `n`, flushed offset, and the trace of issued
filesystem actions. -/
structure SyncLoopState where
  n : Int
  offset : Int
  trace : List FSAct
deriving DecidableEq, Repr

/-- One iteration of `Rotation.syncLoop` processing a job
(src/logro.go lines 878-894). -/
def syncLoopStep (maxSize perSync : Int) (st : SyncLoopState)
    (job : SyncJob) : SyncLoopState :=
  if job.isOld = false then
    if perSync ≤ st.n + job.size then
      { n := 0, offset := st.offset + (st.n + job.size),
        trace := st.trace ++ [FSAct.flushHint job.f st.offset (st.n + job.size)] }
    else { st with n := st.n + job.size }
  else
    { n := 0, offset := 0,
      trace := st.trace ++ [FSAct.flushHint job.f 0 maxSize,
        FSAct.dropCache job.f 0 maxSize, FSAct.closeFile job.f] }

/-- C7: whenever the sync loop processes a retire job (`isOld = true`)
for a file, it issues a final flush hint (over `[0, MaxSize)`), then a
page-cache drop over `[0, MaxSize)`, then closes that file handle, and
resets both its counters (flushed offset and pending bytes) to zero. -/
theorem c7_syncloop_retire (maxSize perSync : Int) (st : SyncLoopState)
    (job : SyncJob) (h : job.isOld = true) :
    syncLoopStep maxSize perSync st job =
      { n := 0, offset := 0,
        trace := st.trace ++ [FSAct.flushHint job.f 0 maxSize,
          FSAct.dropCache job.f 0 maxSize, FSAct.closeFile job.f] } := by
  unfold syncLoopStep
  rw [if_neg (by simp [h])]

theorem c7_syncloop_retire_witness :
    syncLoopStep 4096 1024 ⟨100, 200, []⟩ ⟨3, 0, true⟩ =
      ⟨0, 0, [FSAct.flushHint 3 0 4096, FSAct.dropCache 3 0 4096,
        FSAct.closeFile 3]⟩ := by
  rw [c7_syncloop_retire 4096 1024 ⟨100, 200, []⟩ ⟨3, 0, true⟩ rfl]
  rfl

/-- C8 counterexample: with a sticky error present in the buffered
writer, `Rotation.Write` on a running instance returns that I/O error to
the caller on the hot write path (and returns 0 accepted bytes, not
`len(p)`). -/
theorem c8_rotation_write_error_propagates :
    rotationWrite (fun _ => ⟨1000, none⟩) (fun _ => true) 100 10 3 [7]
      { isRunning := true,
        buf := { cap := 4, data := [], err := some (GoErr.sinkErr 1),
                 w := 0, calls := 0, received := [] },
        f := 0, fileWritten := 0, dirty := 0, syncJobs := [],
        opens := 0, nextF := 1 } =
      some (0, some (GoErr.sinkErr 1),
        { isRunning := true,
          buf := { cap := 4, data := [], err := some (GoErr.sinkErr 1),
                   w := 0, calls := 0, received := [] },
          f := 0, fileWritten := 0, dirty := 0, syncJobs := [],
          opens := 0, nextF := 1 }) := by
  decide

/-- C8 (amended): `Rotation.Write` returns `(0, nil)` when the instance
is closed; when running, if the underlying buffered write succeeds and
any triggered rotation reopen succeeds, it returns exactly `len(p)`
accepted bytes and no error; underlying sticky-buffer or reopen errors,
however, are returned to the caller (see the counterexample). -/
theorem c8_rotation_write_count (sched : Nat → SinkResp)
    (openSched : Nat → Bool) (maxSize perSync : Int) (fuel : Nat)
    (p : List Nat) (s : RotState) (nn fw : Nat) (b' : Bufio)
    (hw : Bufio.write sched fuel p s.buf = some (nn, fw, none, b'))
    (hopen : openSched s.opens = true) :
    (s.isRunning = false →
      rotationWrite sched openSched maxSize perSync fuel p s =
        some (0, none, s)) ∧
    (s.isRunning = true →
      (rotationWrite sched openSched maxSize perSync fuel p s).map
          (fun r => (r.1, r.2.1)) = some (p.length, none)) := by
  constructor
  · intro hc
    unfold rotationWrite
    rw [if_pos hc]
  · intro hr
    have hnn : nn = p.length := by
      have := writeLoop_ok hw
      omega
    subst hnn
    unfold rotationWrite
    rw [if_neg (by simp [hr]), hw]
    dsimp only
    by_cases hd : perSync ≤ s.dirty + (fw : Int)
    · rw [if_pos hd]
      dsimp only
      by_cases hmax : maxSize ≤ s.fileWritten + (fw : Int)
      · rw [if_pos hmax]
        unfold rotOpen
        dsimp only
        rw [hopen]
        simp
      · rw [if_neg hmax]
        simp
    · rw [if_neg hd]
      dsimp only
      by_cases hmax : maxSize ≤ s.fileWritten + (fw : Int)
      · rw [if_pos hmax]
        unfold rotOpen
        dsimp only
        rw [hopen]
        simp
      · rw [if_neg hmax]
        simp

theorem c8_rotation_write_count_witness :
    (rotationWrite (fun _ => ⟨1000, none⟩) (fun _ => true) 100 10 5 [1, 2]
        { isRunning := true, buf := ⟨4, [], none, 0, 0, []⟩, f := 0,
          fileWritten := 0, dirty := 0, syncJobs := [], opens := 0,
          nextF := 1 }).map (fun r => (r.1, r.2.1)) = some (2, none) :=
  (c8_rotation_write_count (fun _ => ⟨1000, none⟩) (fun _ => true) 100 10 5
    [1, 2]
    { isRunning := true, buf := ⟨4, [], none, 0, 0, []⟩, f := 0,
      fileWritten := 0, dirty := 0, syncJobs := [], opens := 0, nextF := 1 }
    2 0 ⟨4, [1, 2], none, 0, 0, []⟩ (by decide) rfl).2 rfl

/-! ### Backup file naming (src/backup.go) and Go `time` semantics

`makeBackupFP` and `parseTime` delegate to Go's `time.Format` /
`time.Parse` with layout `"2006-01-02T15:04:05.000Z0700"` and to
`time.Time.Unix`. The Go `time` package is modelled here: a `GoTime` is
a wall-clock reading (calendar fields plus a fixed zone offset), `unix`
converts it to seconds since the epoch through the proleptic Gregorian
calendar, and `utc` re-derives the fields of the same instant at offset
zero, exactly as `t.UTC()` changes what `Format` prints. Day counts are
kept in `Nat` by measuring days from March 1 of year -400 (one full
400-year cycle before year 0), the standard era-based conversion that
Go's internal `absDate` computation also uses. -/

/-- A Go `time.Time` as the formatting layer sees it: calendar fields,
milliseconds (Go nanoseconds are truncated to ms by the `.000` layout),
and the zone offset in seconds east of UTC. -/
structure GoTime where
  year : Nat
  month : Nat
  day : Nat
  hour : Nat
  minute : Nat
  sec : Nat
  ms : Nat
  offset : Int
deriving DecidableEq, Repr

/-- Gregorian leap-year rule. -/
def isLeap (y : Nat) : Bool :=
  y % 4 = 0 && (y % 100 != 0 || y % 400 = 0)

/-- Go `daysIn(m, year)`. -/
def daysIn (m y : Nat) : Nat :=
  if m = 2 then (if isLeap y then 29 else 28)
  else if m = 4 ∨ m = 6 ∨ m = 9 ∨ m = 11 then 30 else 31

/-- Days from -400-03-01 to day `d` of month `m` of the (400-shifted)
year `y`: civil year `y - 400`, so all values are `Nat`. -/
def toAbsDay (y m d : Nat) : Nat :=
  -- move January and February to the end of the preceding March-year
  (let yy := y - (if m ≤ 2 then 1 else 0)
   let mp := (m + 9) % 12
   let doy := (153 * mp + 2) / 5 + (d - 1)
   (yy / 400) * 146097 + ((yy % 400) * 365 + yy % 400 / 4 - yy % 400 / 100 + doy))

/-- Inverse of `toAbsDay`: day count to (400-shifted year, month, day),
by peeling 400-year eras, centuries, 4-year blocks and years, as Go's
`absDate` does. -/
def ofAbsDay (z : Nat) : Nat × Nat × Nat :=
  (let doe := z % 146097
   let n100 := min (doe / 36524) 3
   let r1 := doe - 36524 * n100
   let n4 := r1 / 1461
   let r2 := r1 - 1461 * n4
   let n1 := min (r2 / 365) 3
   let doy := r2 - 365 * n1
   let yoe := n100 * 100 + n4 * 4 + n1
   let mp := (5 * doy + 2) / 153
   let d := doy - (153 * mp + 2) / 5 + 1
   let m := if mp < 10 then mp + 3 else mp - 9
   ((z / 146097) * 400 + yoe + (if m ≤ 2 then 1 else 0), m, d))

/-- Absolute seconds (from -400-03-01T00:00:00) of the Unix epoch. -/
def ABS0 : Int := (toAbsDay 2370 1 1 : Int) * 86400

/-- Absolute seconds of 10000-01-01T00:00:00 UTC, one past the largest
instant whose UTC reading still has a four-digit year. -/
def SECS_MAX : Int := (toAbsDay 10400 1 1 : Int) * 86400

/-- `time.Time.Unix()`: seconds since the epoch of this wall-clock
reading at its zone offset. -/
def GoTime.unix (t : GoTime) : Int :=
  (toAbsDay (t.year + 400) t.month t.day : Int) * 86400 +
    t.hour * 3600 + t.minute * 60 + t.sec - ABS0 - t.offset

/-- `time.Time.UTC()` as `Format` observes it: the calendar fields of
the same instant at offset zero (milliseconds are not affected). -/
def GoTime.utc (t : GoTime) : GoTime :=
  (let a := (t.unix + ABS0).toNat
   let ymd := ofAbsDay (a / 86400)
   { year := ymd.1 - 400, month := ymd.2.1, day := ymd.2.2,
     hour := a % 86400 / 3600, minute := a % 86400 % 3600 / 60,
     sec := a % 86400 % 60, ms := t.ms, offset := 0 })


/-- A decimal digit character. -/
def digitChar (k : Nat) : Char := Char.ofNat (48 + k)

/-- Zero-padded fixed-width decimal prints, as Go's `appendInt` produces
for the layout's fixed-width fields (all printed values fit the width). -/
def pad2 (n : Nat) : List Char := [digitChar (n / 10), digitChar (n % 10)]

def pad3 (n : Nat) : List Char :=
  [digitChar (n / 100), digitChar (n / 10 % 10), digitChar (n % 10)]

def pad4 (n : Nat) : List Char :=
  [digitChar (n / 1000), digitChar (n / 100 % 10), digitChar (n / 10 % 10),
    digitChar (n % 10)]

/-- Format of the `Z0700` layout element: `Z` for offset zero, otherwise
a sign and `hhmm` of the offset in minutes. -/
def formatTZ (off : Int) : List Char :=
  if off = 0 then ['Z']
  else
    (if off < 0 then '-' else '+') ::
      (pad2 (off.natAbs / 60 / 60) ++ pad2 (off.natAbs / 60 % 60))

/-- `t.Format("2006-01-02T15:04:05.000Z0700")`. -/
def formatTime (t : GoTime) : List Char :=
  pad4 t.year ++ '-' :: (pad2 t.month ++ '-' :: (pad2 t.day ++
    'T' :: (pad2 t.hour ++ ':' :: (pad2 t.minute ++ ':' :: (pad2 t.sec ++
      '.' :: (pad3 t.ms ++ formatTZ t.offset))))))

/-- Read one fixed two-digit number (Go `getnum` with `fixed=true`). -/
def read2 : List Char → Option (Nat × List Char)
  | c1 :: c2 :: rest =>
    if 48 ≤ c1.toNat ∧ c1.toNat ≤ 57 ∧ 48 ≤ c2.toNat ∧ c2.toNat ≤ 57 then
      some ((c1.toNat - 48) * 10 + (c2.toNat - 48), rest)
    else none
  | _ => none

def read3 : List Char → Option (Nat × List Char)
  | c1 :: c2 :: c3 :: rest =>
    if 48 ≤ c1.toNat ∧ c1.toNat ≤ 57 ∧ 48 ≤ c2.toNat ∧ c2.toNat ≤ 57 ∧
        48 ≤ c3.toNat ∧ c3.toNat ≤ 57 then
      some ((c1.toNat - 48) * 100 + (c2.toNat - 48) * 10 + (c3.toNat - 48),
        rest)
    else none
  | _ => none

def read4 : List Char → Option (Nat × List Char)
  | c1 :: c2 :: c3 :: c4 :: rest =>
    if 48 ≤ c1.toNat ∧ c1.toNat ≤ 57 ∧ 48 ≤ c2.toNat ∧ c2.toNat ≤ 57 ∧
        48 ≤ c3.toNat ∧ c3.toNat ≤ 57 ∧ 48 ≤ c4.toNat ∧ c4.toNat ≤ 57 then
      some ((c1.toNat - 48) * 1000 + (c2.toNat - 48) * 100 +
        (c3.toNat - 48) * 10 + (c4.toNat - 48), rest)
    else none
  | _ => none

def expectCh (c : Char) : List Char → Option (List Char)
  | [] => none
  | c' :: rest => if c' = c then some rest else none

/-- Parse of the `Z0700` layout element: `Z`, or sign and `hhmm`
(Go does not range-check the zone digits). -/
def parseTZ : List Char → Option (Int × List Char)
  | [] => none
  | c :: rest =>
    if c = 'Z' then some (0, rest)
    else if c = '+' ∨ c = '-' then
      match read2 rest with
      | some (hh, rest2) =>
        match read2 rest2 with
        | some (mm, rest3) =>
          some (if c = '-' then -(((hh * 60 + mm) * 60 : Int))
            else ((hh * 60 + mm) * 60 : Int), rest3)
        | none => none
      | none => none
    else none

/-- `time.Parse("2006-01-02T15:04:05.000Z0700", s)`, including the
range validation Go performs on month, day, hour, minute and second,
and the requirement that the whole value is consumed. -/
def parseTimeStr (s : List Char) : Option GoTime :=
  match read4 s with
  | none => none
  | some (y, s1) =>
  match expectCh '-' s1 with
  | none => none
  | some s2 =>
  match read2 s2 with
  | none => none
  | some (mo, s3) =>
  match expectCh '-' s3 with
  | none => none
  | some s4 =>
  match read2 s4 with
  | none => none
  | some (d, s5) =>
  match expectCh 'T' s5 with
  | none => none
  | some s6 =>
  match read2 s6 with
  | none => none
  | some (h, s7) =>
  match expectCh ':' s7 with
  | none => none
  | some s8 =>
  match read2 s8 with
  | none => none
  | some (mi, s9) =>
  match expectCh ':' s9 with
  | none => none
  | some s10 =>
  match read2 s10 with
  | none => none
  | some (sec, s11) =>
  match expectCh '.' s11 with
  | none => none
  | some s12 =>
  match read3 s12 with
  | none => none
  | some (ms, s13) =>
  match parseTZ s13 with
  | none => none
  | some (off, rest) =>
    if rest = [] ∧ 1 ≤ mo ∧ mo ≤ 12 ∧ 1 ≤ d ∧ d ≤ daysIn mo y ∧
        h < 24 ∧ mi < 60 ∧ sec < 60 then
      some ⟨y, mo, d, h, mi, sec, ms, off⟩
    else none


/-! Path handling (`path/filepath`), modelled on `List Char` for the
path shapes logro builds: `Base` takes the part after the last slash,
`Ext` the suffix from the last dot of the last element, `Join` glues
with a slash (a `Dir` of `"."` means the current directory and adds no
prefix, matching `Clean`'s behaviour on these shapes). -/

/-- `filepath.Base` (for paths without trailing slashes). -/
def goBase (s : List Char) : List Char :=
  if s = [] then ['.']
  else (s.reverse.takeWhile (fun c => ¬ (c = '/'))).reverse

/-- `filepath.Dir` (for the same path shapes). -/
def goDir (s : List Char) : List Char :=
  if (s.reverse.dropWhile (fun c => ¬ (c = '/'))).reverse.dropLast = []
  then (if '/' ∈ s then ['/'] else ['.'])
  else (s.reverse.dropWhile (fun c => ¬ (c = '/'))).reverse.dropLast

/-- `filepath.Join` of a directory and a file name. -/
def goJoin (d f : List Char) : List Char :=
  if d = ['.'] then f else d ++ '/' :: f

/-- `filepath.Ext`: the suffix starting at the final dot in the final
(slash-free) element, empty if there is none. -/
def goExt : List Char → List Char
  | [] => []
  | c :: rest =>
    if (goExt rest).length ≠ 0 then goExt rest
    else if c = '.' ∧ ¬ ('/' ∈ rest) then c :: rest
    else []

/-- `getPrefixAndExt` (src/backup.go lines 97-102). -/
def getPrefixAndExt (outputPath : List Char) : List Char × List Char :=
  (let name := goBase outputPath
   let ext := goExt name
   (name.take (name.length - ext.length) ++ ['-'], ext))

/-- `makeBackupFP` (src/backup.go lines 126-137): build the backup path
`dir/<stem>-<timestamp><ext>` and return it with the timestamp's unix
seconds; when `loc` (Go: `local`) is false the time is converted to UTC first. -/
def makeBackupFP (name : List Char) (loc : Bool) (t : GoTime) :
    List Char × Int :=
  (let dir := goDir name
   let filename := goBase name
   let ext := goExt filename
   let stem := filename.take (filename.length - ext.length)
   let t1 := if loc then t else t.utc
   (goJoin dir (stem ++ '-' :: (formatTime t1 ++ ext)), t1.unix))

/-- `parseTime` (src/backup.go lines 110-124): strip the prefix and the
extension off the file name, parse the middle as a backup timestamp, and
return its unix seconds; 0 for anything that does not parse. -/
def parseTime (fp pre ext : List Char) : Int :=
  (let filename := goBase fp
   if pre.isPrefixOf filename then
     if ext.isSuffixOf filename then
       match parseTimeStr
           ((filename.drop pre.length).take
             (filename.length - ext.length - pre.length)) with
       | some t => t.unix
       | none => 0
     else 0
   else 0)


/-! Round-trip of the fixed-width numeric fields. -/

theorem digitChar_toNat {k : Nat} (h : k < 10) :
    (digitChar k).toNat = 48 + k := by
  interval_cases k <;> decide

theorem digitChar_digit {k : Nat} (h : k < 10) :
    48 ≤ (digitChar k).toNat ∧ (digitChar k).toNat ≤ 57 := by
  rw [digitChar_toNat h]; omega

theorem read2_pad2 {n : Nat} (h : n < 100) (rest : List Char) :
    read2 (pad2 n ++ rest) = some (n, rest) := by
  have h1 := digitChar_toNat (show n / 10 < 10 by omega)
  have h2 := digitChar_toNat (show n % 10 < 10 by omega)
  simp only [pad2, List.cons_append, List.nil_append, read2]
  rw [if_pos (by omega)]
  simp only [Option.some.injEq, Prod.mk.injEq, and_true]
  omega

theorem read3_pad3 {n : Nat} (h : n < 1000) (rest : List Char) :
    read3 (pad3 n ++ rest) = some (n, rest) := by
  have h1 := digitChar_toNat (show n / 100 < 10 by omega)
  have h2 := digitChar_toNat (show n / 10 % 10 < 10 by omega)
  have h3 := digitChar_toNat (show n % 10 < 10 by omega)
  simp only [pad3, List.cons_append, List.nil_append, read3]
  rw [if_pos (by omega)]
  simp only [Option.some.injEq, Prod.mk.injEq, and_true]
  omega

theorem read4_pad4 {n : Nat} (h : n < 10000) (rest : List Char) :
    read4 (pad4 n ++ rest) = some (n, rest) := by
  have h1 := digitChar_toNat (show n / 1000 < 10 by omega)
  have h2 := digitChar_toNat (show n / 100 % 10 < 10 by omega)
  have h3 := digitChar_toNat (show n / 10 % 10 < 10 by omega)
  have h4 := digitChar_toNat (show n % 10 < 10 by omega)
  simp only [pad4, List.cons_append, List.nil_append, read4]
  rw [if_pos (by omega)]
  simp only [Option.some.injEq, Prod.mk.injEq, and_true]
  omega

theorem expectCh_cons (c : Char) (rest : List Char) :
    expectCh c (c :: rest) = some rest := by
  simp [expectCh]

theorem parseTZ_formatTZ {off : Int} (hdvd : (60 : Int) ∣ off)
    (hb : off.natAbs ≤ 359940) (rest : List Char) :
    parseTZ (formatTZ off ++ rest) = some (off, rest) := by
  have hdvd' : (60 : Nat) ∣ off.natAbs := by
    have := Int.natAbs_dvd_natAbs.mpr hdvd
    simpa using this
  rcases eq_or_ne off 0 with rfl | hne
  · simp [formatTZ, parseTZ]
  · have hh_lt : off.natAbs / 60 / 60 < 100 := by omega
    have hm_lt : off.natAbs / 60 % 60 < 100 := by omega
    have key : ((off.natAbs / 60 / 60) * 60 + off.natAbs / 60 % 60) * 60
        = off.natAbs := by omega
    rcases lt_or_gt_of_ne hne with hneg | hpos
    · simp only [formatTZ, if_neg hne, if_pos hneg, List.cons_append,
        List.append_assoc, parseTZ]
      rw [if_neg (by decide), if_pos (Or.inr trivial : ('-' = '+' ∨ True))]
      rw [read2_pad2 hh_lt]
      dsimp only
      rw [read2_pad2 hm_lt]
      dsimp only
      rw [if_pos trivial]
      simp only [Option.some.injEq, Prod.mk.injEq, and_true]
      omega
    · simp only [formatTZ, if_neg hne, if_neg (by omega : ¬ off < 0),
        List.cons_append, List.append_assoc, parseTZ]
      rw [if_neg (by decide), if_pos (Or.inl trivial : (True ∨ '+' = '-'))]
      rw [read2_pad2 hh_lt]
      dsimp only
      rw [read2_pad2 hm_lt]
      dsimp only
      rw [if_neg (by decide : ¬ ('+' : Char) = '-')]
      simp only [Option.some.injEq, Prod.mk.injEq, and_true]
      omega

/-- Wall-clock validity: the fields are in range and the offset is
expressible in the `Z0700` element. -/
def ValidTime (t : GoTime) : Prop :=
  t.year ≤ 9999 ∧ 1 ≤ t.month ∧ t.month ≤ 12 ∧ 1 ≤ t.day ∧
  t.day ≤ daysIn t.month t.year ∧ t.hour < 24 ∧ t.minute < 60 ∧
  t.sec < 60 ∧ t.ms < 1000 ∧ (60 : Int) ∣ t.offset ∧
  t.offset.natAbs ≤ 359940

/-- Parsing inverts formatting on any valid wall-clock reading. -/
theorem parseTimeStr_formatTime {t : GoTime} (h : ValidTime t) :
    parseTimeStr (formatTime t) = some t := by
  obtain ⟨hy, hm1, hm2, hd1, hd2, hh, hmi, hs, hms, hoff, hob⟩ := h
  have hdi : daysIn t.month t.year ≤ 31 := by
    unfold daysIn; split_ifs <;> omega
  unfold formatTime parseTimeStr
  rw [read4_pad4 (by omega)]
  dsimp only
  rw [expectCh_cons]
  dsimp only
  rw [read2_pad2 (by omega)]
  dsimp only
  rw [expectCh_cons]
  dsimp only
  rw [read2_pad2 (by omega)]
  dsimp only
  rw [expectCh_cons]
  dsimp only
  rw [read2_pad2 (by omega)]
  dsimp only
  rw [expectCh_cons]
  dsimp only
  rw [read2_pad2 (by omega)]
  dsimp only
  rw [expectCh_cons]
  dsimp only
  rw [read2_pad2 (by omega)]
  dsimp only
  rw [expectCh_cons]
  dsimp only
  rw [read3_pad3 (by omega)]
  dsimp only
  rw [show formatTZ t.offset = formatTZ t.offset ++ [] by simp]
  rw [parseTZ_formatTZ hoff hob]
  dsimp only
  rw [if_pos (by exact ⟨rfl, hm1, hm2, hd1, hd2, hh, hmi, hs⟩)]

/-- `daysIn` on the 400-shifted year. -/
def daysInS (m y : Nat) : Nat :=
  if m = 2 then
    (if y % 4 = 0 ∧ (y % 100 ≠ 0 ∨ y % 400 = 0) then 29 else 28)
  else if m = 4 ∨ m = 6 ∨ m = 9 ∨ m = 11 then 30 else 31

theorem daysInS_eq {m y : Nat} (h : 400 ≤ y) :
    daysInS m y = daysIn m (y - 400) := by
  unfold daysInS daysIn isLeap
  have h4 : y % 4 = (y - 400) % 4 := by omega
  have h100 : y % 100 = (y - 400) % 100 := by omega
  have h400 : y % 400 = (y - 400) % 400 := by omega
  rw [h4, h100, h400]
  rcases Nat.decEq ((y - 400) % 4) 0 with hq | hq <;>
    rcases Nat.decEq ((y - 400) % 100) 0 with hw | hw <;>
      split_ifs <;> simp_all

/-! Arithmetic facts behind `ofAbsDay`, each proved in isolation so that
the linear-arithmetic search never sees the whole decomposition chain at
once. -/

theorem calZ (z era doe : Nat) (h1 : era = z / 146097)
    (h2 : doe = z % 146097) : z = era * 146097 + doe ∧ doe < 146097 := by
  omega

theorem calA (doe n100 r1 n4 r2 n1 doy : Nat)
    (hn100 : n100 = min (doe / 36524) 3)
    (hr1 : r1 = doe - 36524 * n100)
    (hn4 : n4 = r1 / 1461)
    (hr2 : r2 = r1 - 1461 * n4)
    (hn1 : n1 = min (r2 / 365) 3)
    (hdoy : doy = r2 - 365 * n1)
    (hdoe : doe < 146097) :
    doe = 36524 * n100 + 1461 * n4 + 365 * n1 + doy ∧
    n100 ≤ 3 ∧ n4 ≤ 24 ∧ n1 ≤ 3 ∧ doy ≤ 365 ∧
    (doy = 365 → n1 = 3 ∧ r2 = 1460 ∧ (n4 = 24 → n100 = 3)) := by
  omega

theorem calB (n100 n4 n1 yoe : Nat) (hyoe : yoe = n100 * 100 + n4 * 4 + n1)
    (h1 : n100 ≤ 3) (h2 : n4 ≤ 24) (h3 : n1 ≤ 3) :
    yoe ≤ 399 ∧
    yoe * 365 + yoe / 4 - yoe / 100 = 36524 * n100 + 1461 * n4 + 365 * n1 := by
  have h4 : yoe / 4 = n100 * 25 + n4 := by omega
  have h100 : yoe / 100 = n100 := by omega
  omega

theorem calC (doy mp d : Nat) (hmp : mp = (5 * doy + 2) / 153)
    (hdoy : doy ≤ 365) (hd : d = doy - (153 * mp + 2) / 5 + 1) :
    mp ≤ 11 ∧ 1 ≤ d ∧ doy = (153 * mp + 2) / 5 + (d - 1) ∧
    d ≤ 31 ∧
    (mp = 1 ∨ mp = 3 ∨ mp = 6 ∨ mp = 8 → d ≤ 30) ∧
    (mp = 11 → d ≤ 29 ∧ (d = 29 → doy = 365)) := by
  omega

theorem calM (mp m : Nat) (hm : m = if mp < 10 then mp + 3 else mp - 9)
    (hb : mp ≤ 11) :
    ((m ≤ 2 ∧ mp = m + 9) ∨ (3 ≤ m ∧ mp = m - 3)) ∧ 1 ≤ m ∧ m ≤ 12 := by
  subst hm
  by_cases hlt : mp < 10
  · rw [if_pos hlt]
    exact ⟨Or.inr ⟨by omega, by omega⟩, by omega, by omega⟩
  · rw [if_neg hlt]
    exact ⟨Or.inl ⟨by omega, by omega⟩, by omega, by omega⟩

theorem calAdj (m adj : Nat) (hadj : adj = if m ≤ 2 then 1 else 0) :
    (m ≤ 2 ∧ adj = 1) ∨ (3 ≤ m ∧ adj = 0) := by
  subst hadj
  by_cases hle : m ≤ 2
  · rw [if_pos hle]; exact Or.inl ⟨hle, rfl⟩
  · rw [if_neg hle]; exact Or.inr ⟨by omega, rfl⟩

theorem calD (era yoe : Nat) (h : yoe ≤ 399) :
    (era * 400 + yoe) / 400 = era ∧ (era * 400 + yoe) % 400 = yoe := by
  omega

theorem calE (era n100 n4 n1 yoe y : Nat)
    (hyoe : yoe = n100 * 100 + n4 * 4 + n1)
    (hy : y = era * 400 + yoe + 1) (hn1 : n1 = 3) (hb4 : n4 ≤ 24)
    (hq : n4 = 24 → n100 = 3) (hb100 : n100 ≤ 3) :
    y % 4 = 0 ∧ (y % 100 ≠ 0 ∨ y % 400 = 0) := by
  refine ⟨by omega, ?_⟩
  by_cases h24 : n4 = 24
  · exact Or.inr (by have := hq h24; omega)
  · exact Or.inl (by omega)

set_option maxHeartbeats 1000000 in
/-- Arithmetic core of the day-count decomposition: the quantities
computed by `ofAbsDay` (given here by their defining equations) invert
`toAbsDay` and form an in-range calendar date. -/
theorem calendar_main
    (z era doe n100 r1 n4 r2 n1 doy yoe mp d m adj y : Nat)
    (hera : era = z / 146097) (hdoe : doe = z % 146097)
    (hn100 : n100 = min (doe / 36524) 3)
    (hr1 : r1 = doe - 36524 * n100)
    (hn4 : n4 = r1 / 1461)
    (hr2 : r2 = r1 - 1461 * n4)
    (hn1 : n1 = min (r2 / 365) 3)
    (hdoy : doy = r2 - 365 * n1)
    (hyoe : yoe = n100 * 100 + n4 * 4 + n1)
    (hmp : mp = (5 * doy + 2) / 153)
    (hd : d = doy - (153 * mp + 2) / 5 + 1)
    (hm : m = if mp < 10 then mp + 3 else mp - 9)
    (hadj : adj = if m ≤ 2 then 1 else 0)
    (hy : y = era * 400 + yoe + adj) :
    toAbsDay y m d = z ∧ 1 ≤ m ∧ m ≤ 12 ∧ 1 ≤ d ∧ d ≤ daysInS m y := by
  obtain ⟨e_z, b_doe⟩ := calZ z era doe hera hdoe
  obtain ⟨e_doe, b_n100, b_n4, b_n1, b_doy, h365⟩ :=
    calA doe n100 r1 n4 r2 n1 doy hn100 hr1 hn4 hr2 hn1 hdoy b_doe
  obtain ⟨b_yoe, e_yd⟩ := calB n100 n4 n1 yoe hyoe b_n100 b_n4 b_n1
  obtain ⟨b_mp, b_d, e_doy, d31, d30, d29⟩ := calC doy mp d hmp b_doy hd
  have e_m := calM mp m hm b_mp
  have e_adj := calAdj m adj hadj
  clear hera hdoe hn100 hr1 hn4 hr2 hn1 hdoy hmp hd hm hadj
  refine ⟨?_, e_m.2.1, e_m.2.2, b_d, ?_⟩
  · -- round trip
    unfold toAbsDay
    dsimp only
    have hmp2 : (m + 9) % 12 = mp := by
      rcases e_m.1 with ⟨h1, h2⟩ | ⟨h1, h2⟩ <;> omega
    rcases e_adj with ⟨h1, h2⟩ | ⟨h1, h2⟩
    · rw [if_pos h1, hmp2]
      have hysub : y - 1 = era * 400 + yoe := by omega
      rw [hysub, (calD era yoe b_yoe).1, (calD era yoe b_yoe).2]
      omega
    · rw [if_neg (by omega), hmp2]
      have hysub : y - 0 = era * 400 + yoe := by omega
      rw [hysub, (calD era yoe b_yoe).1, (calD era yoe b_yoe).2]
      omega
  · -- day upper bound
    unfold daysInS
    by_cases hm2 : m = 2
    · rw [if_pos hm2]
      have hmp11 : mp = 11 := by
        rcases e_m.1 with ⟨h1, h2⟩ | ⟨h1, h2⟩ <;> omega
      by_cases hleap : y % 4 = 0 ∧ (y % 100 ≠ 0 ∨ y % 400 = 0)
      · rw [if_pos hleap]
        exact (d29 hmp11).1
      · rw [if_neg hleap]
        -- on a non-leap year the 366th day of the March-year cannot occur
        by_contra hcon
        have hd29' : d = 29 := by
          have := (d29 hmp11).1
          omega
        obtain ⟨hn1', hr2', hq⟩ := h365 ((d29 hmp11).2 hd29')
        have hadj1 : adj = 1 := by
          rcases e_adj with ⟨h1, h2⟩ | ⟨h1, h2⟩ <;> omega
        exact hleap (calE era n100 n4 n1 yoe y hyoe (by omega) hn1' b_n4 hq
          b_n100)
    · rw [if_neg hm2]
      have hmp2' : mp = m - 3 ∨ mp = m + 9 := by
        rcases e_m.1 with ⟨h1, h2⟩ | ⟨h1, h2⟩
        · right; exact h2
        · left; exact h2
      split_ifs with h30'
      · have : mp = 1 ∨ mp = 3 ∨ mp = 6 ∨ mp = 8 := by
          rcases hmp2' with h' | h' <;> rcases h30' with h'' | h'' | h'' | h'' <;>
            omega
        exact d30 this
      · exact d31

/-- `ofAbsDay` inverts `toAbsDay` and produces an in-range date. -/
theorem ofAbsDay_spec (z y m d : Nat) (h : ofAbsDay z = (y, m, d)) :
    toAbsDay y m d = z ∧ 1 ≤ m ∧ m ≤ 12 ∧ 1 ≤ d ∧ d ≤ daysInS m y := by
  unfold ofAbsDay at h
  dsimp only at h
  rw [Prod.mk.injEq, Prod.mk.injEq] at h
  obtain ⟨hy, hm, hd⟩ := h
  subst hy hm hd
  exact calendar_main z _ _ _ _ _ _ _ _ _ _ _ _ _ _
    rfl rfl rfl rfl rfl rfl rfl rfl rfl rfl rfl rfl rfl rfl

/-- `toAbsDay` in terms of the civil-year day count: the era/century
split collapses to `365 yy + yy/4 - yy/100 + yy/400` plus a bounded
day-of-March-year. -/
theorem toAbsDay_bounds (y m d : Nat) (hm1 : 1 ≤ m) (hm2 : m ≤ 12)
    (hd1 : 1 ≤ d) (hd2 : d ≤ 31) :
    ∃ yy doy,
      ((m ≤ 2 ∧ yy = y - 1 ∧ 306 ≤ doy ∧ doy ≤ 367) ∨
        (3 ≤ m ∧ yy = y ∧ doy ≤ 305)) ∧
      toAbsDay y m d = 365 * yy + yy / 4 - yy / 100 + yy / 400 + doy := by
  unfold toAbsDay
  dsimp only
  by_cases h2 : m ≤ 2
  · rw [if_pos h2]
    refine ⟨y - 1, (153 * ((m + 9) % 12) + 2) / 5 + (d - 1),
      Or.inl ⟨h2, rfl, ?_, ?_⟩, ?_⟩
    · have : (m + 9) % 12 = m + 9 := by omega
      omega
    · have : (m + 9) % 12 = m + 9 := by omega
      omega
    · omega
  · rw [if_neg h2]
    refine ⟨y - 0, (153 * ((m + 9) % 12) + 2) / 5 + (d - 1),
      Or.inr ⟨by omega, by omega, ?_⟩, ?_⟩
    · have : (m + 9) % 12 = m - 3 := by omega
      omega
    · omega

/-- The recovered (400-shifted) year of an absolute day in
`[0000-01-01, 10000-01-01)` lies in `[400, 10399]`. -/
theorem utc_year_range (z y m d : Nat) (h : ofAbsDay z = (y, m, d))
    (hlo : toAbsDay 400 1 1 ≤ z) (hhi : z < toAbsDay 10400 1 1) :
    400 ≤ y ∧ y ≤ 10399 := by
  obtain ⟨hz, hm1, hm2, hd1, hd2⟩ := ofAbsDay_spec z y m d h
  have hd31 : d ≤ 31 := le_trans hd2 (by unfold daysInS; split_ifs <;> omega)
  obtain ⟨yy, doy, hcase, heq⟩ := toAbsDay_bounds y m d hm1 hm2 hd1 hd31
  rw [hz] at heq
  have c1 : toAbsDay 400 1 1 = 146037 := by norm_num [toAbsDay]
  have c2 : toAbsDay 10400 1 1 = 3798462 := by norm_num [toAbsDay]
  rw [c1] at hlo
  rw [c2] at hhi
  have h2' : 4 * (yy / 4) ≥ yy - 3 := by omega
  have h3' : 100 * (yy / 100) ≤ yy := by omega
  constructor
  · by_contra hc
    rcases Nat.lt_or_ge yy 399 with hsm | hlg
    · have h1 : yy / 400 = 0 := by omega
      rcases hcase with ⟨hm', hyy, hlo', hhi'⟩ | ⟨hm', hyy, hhi'⟩ <;> omega
    · have hyb : yy ≤ 399 := by
        rcases hcase with ⟨hm', hyy, hlo', hhi'⟩ | ⟨hm', hyy, hhi'⟩ <;> omega
      have h399 : yy = 399 := by omega
      have h4 : yy / 100 = 3 := by omega
      have h1 : yy / 400 = 0 := by omega
      rcases hcase with ⟨hm', hyy, hlo', hhi'⟩ | ⟨hm', hyy, hhi'⟩ <;> omega
  · by_contra hc
    have h1 : 400 * (yy / 400) ≥ yy - 399 := by omega
    rcases hcase with ⟨hm', hyy, hlo', hhi'⟩ | ⟨hm', hyy, hhi'⟩ <;> omega

/-- Absolute seconds of 0000-01-01T00:00:00 UTC, the first instant whose
UTC reading has a four-digit (zero-padded) year. -/
def SECS_MIN : Int := (toAbsDay 400 1 1 : Int) * 86400

/-- A wall-clock reading is representable in the backup-time format when
its fields are valid and its instant's UTC reading also has a four-digit
year (so the fixed-width format renders and re-parses it faithfully). -/
def Representable (t : GoTime) : Prop :=
  ValidTime t ∧ SECS_MIN ≤ t.unix + ABS0 ∧ t.unix + ABS0 < SECS_MAX

/-- Converting to UTC preserves the instant and yields a valid reading:
`t.UTC()` has in-range fields, offset zero, and the same `Unix()`. -/
theorem utc_spec (t : GoTime) (hms : t.ms < 1000)
    (hlo : SECS_MIN ≤ t.unix + ABS0) (hhi : t.unix + ABS0 < SECS_MAX) :
    ValidTime t.utc ∧ t.utc.unix = t.unix := by
  have hmin : SECS_MIN = 146037 * 86400 := by norm_num [SECS_MIN, toAbsDay]
  have hmax : SECS_MAX = 3798462 * 86400 := by norm_num [SECS_MAX, toAbsDay]
  have habs : ABS0 = 865565 * 86400 := by norm_num [ABS0, toAbsDay]
  obtain ⟨y, m, d, hof⟩ :
      ∃ y m d, ofAbsDay ((t.unix + ABS0).toNat / 86400) = (y, m, d) :=
    ⟨_, _, _, rfl⟩
  have h1 : toAbsDay 400 1 1 ≤ (t.unix + ABS0).toNat / 86400 := by
    have c1 : toAbsDay 400 1 1 = 146037 := by norm_num [toAbsDay]
    omega
  have h2 : (t.unix + ABS0).toNat / 86400 < toAbsDay 10400 1 1 := by
    have c2 : toAbsDay 10400 1 1 = 3798462 := by norm_num [toAbsDay]
    omega
  obtain ⟨hy400, hy10399⟩ := utc_year_range _ _ _ _ hof h1 h2
  obtain ⟨hz, hm1, hm2, hd1, hd2⟩ := ofAbsDay_spec _ _ _ _ hof
  rw [daysInS_eq hy400] at hd2
  constructor
  · unfold ValidTime GoTime.utc
    dsimp only
    rw [hof]
    dsimp only
    refine ⟨by omega, hm1, hm2, hd1, hd2, by omega, by omega, by omega,
      hms, dvd_zero 60, by decide⟩
  · unfold GoTime.unix GoTime.utc
    dsimp only
    rw [hof]
    dsimp only
    rw [show y - 400 + 400 = y from by omega, hz]
    have hkey : 3600 * ((t.unix + ABS0).toNat % 86400 / 3600) +
        60 * ((t.unix + ABS0).toNat % 86400 % 3600 / 60) +
        (t.unix + ABS0).toNat % 86400 % 60 =
        (t.unix + ABS0).toNat % 86400 := by omega
    have hunix : t.unix =
        (toAbsDay (t.year + 400) t.month t.day : Int) * 86400 +
          t.hour * 3600 + t.minute * 60 + t.sec - ABS0 - t.offset := rfl
    omega

/-! Path plumbing: on slash-free names `Base` is the identity, `Dir` is
`"."`, and the backup path decomposes as prefix ++ timestamp ++ ext. -/

theorem digitChar_ne_slash {k : Nat} (h : k < 10) : digitChar k ≠ '/' := by
  interval_cases k <;> decide

theorem slash_not_mem_pad2 {n : Nat} (h : n < 100) : '/' ∉ pad2 n := by
  intro hmem
  rcases List.mem_cons.mp hmem with h1 | h1
  · exact digitChar_ne_slash (by omega) h1.symm
  · rcases List.mem_cons.mp h1 with h2 | h2
    · exact digitChar_ne_slash (by omega) h2.symm
    · simp at h2

theorem slash_not_mem_pad3 {n : Nat} (h : n < 1000) : '/' ∉ pad3 n := by
  intro hmem
  rcases List.mem_cons.mp hmem with h1 | h1
  · exact digitChar_ne_slash (by omega) h1.symm
  · rcases List.mem_cons.mp h1 with h2 | h2
    · exact digitChar_ne_slash (by omega) h2.symm
    · rcases List.mem_cons.mp h2 with h3 | h3
      · exact digitChar_ne_slash (by omega) h3.symm
      · simp at h3

theorem slash_not_mem_pad4 {n : Nat} (h : n < 10000) : '/' ∉ pad4 n := by
  intro hmem
  rcases List.mem_cons.mp hmem with h1 | h1
  · exact digitChar_ne_slash (by omega) h1.symm
  · rcases List.mem_cons.mp h1 with h2 | h2
    · exact digitChar_ne_slash (by omega) h2.symm
    · rcases List.mem_cons.mp h2 with h3 | h3
      · exact digitChar_ne_slash (by omega) h3.symm
      · rcases List.mem_cons.mp h3 with h4 | h4
        · exact digitChar_ne_slash (by omega) h4.symm
        · simp at h4

theorem slash_not_mem_formatTZ {off : Int} (hb : off.natAbs ≤ 359940) :
    '/' ∉ formatTZ off := by
  unfold formatTZ
  split_ifs with h1 h2 <;> intro hmem
  · simp at hmem
  · rcases List.mem_cons.mp hmem with h | h
    · exact absurd h (by decide)
    · rcases List.mem_append.mp h with h | h
      · exact slash_not_mem_pad2 (by omega) h
      · exact slash_not_mem_pad2 (by omega) h
  · rcases List.mem_cons.mp hmem with h | h
    · exact absurd h (by decide)
    · rcases List.mem_append.mp h with h | h
      · exact slash_not_mem_pad2 (by omega) h
      · exact slash_not_mem_pad2 (by omega) h

theorem slash_not_mem_formatTime {t : GoTime} (h : ValidTime t) :
    '/' ∉ formatTime t := by
  obtain ⟨hy, hm1, hm2, hd1, hd2, hh, hmi, hs, hms, hoff, hob⟩ := h
  have hdi : daysIn t.month t.year ≤ 31 := by unfold daysIn; split_ifs <;> omega
  intro hmem
  simp only [formatTime, List.mem_append, List.mem_cons] at hmem
  rcases hmem with h | h | h | h | h | h | h | h | h | h | h | h | h | h
  · exact slash_not_mem_pad4 (by omega) h
  · exact absurd h (by decide)
  · exact slash_not_mem_pad2 (by omega) h
  · exact absurd h (by decide)
  · exact slash_not_mem_pad2 (by omega) h
  · exact absurd h (by decide)
  · exact slash_not_mem_pad2 (by omega) h
  · exact absurd h (by decide)
  · exact slash_not_mem_pad2 (by omega) h
  · exact absurd h (by decide)
  · exact slash_not_mem_pad2 (by omega) h
  · exact absurd h (by decide)
  · exact slash_not_mem_pad3 (by omega) h
  · exact slash_not_mem_formatTZ hob h

theorem goBase_of_no_slash {s : List Char} (h : '/' ∉ s) (hne : s ≠ []) :
    goBase s = s := by
  unfold goBase
  rw [if_neg hne, List.takeWhile_eq_self_iff.mpr, List.reverse_reverse]
  intro a ha
  simp only [List.mem_reverse] at ha
  simp only [decide_eq_true_eq]
  intro he
  exact h (he ▸ ha)

theorem goDir_of_no_slash {s : List Char} (h : '/' ∉ s) :
    goDir s = ['.'] := by
  unfold goDir
  have hdw : s.reverse.dropWhile (fun c => ¬ (c = '/')) = [] := by
    rw [List.dropWhile_eq_nil_iff]
    intro a ha
    simp only [List.mem_reverse] at ha
    simp only [decide_eq_true_eq]
    intro he
    exact h (he ▸ ha)
  rw [hdw]
  simp [h]

theorem mem_goExt {c : Char} {s : List Char} (hm : c ∈ goExt s) : c ∈ s := by
  induction s with
  | nil => simp [goExt] at hm
  | cons a rest ih =>
    rw [goExt] at hm
    split_ifs at hm with h1 h2
    · exact List.mem_cons_of_mem a (ih hm)
    · exact hm
    · simp at hm

theorem isPrefixOf_append (l t : List Char) : l.isPrefixOf (l ++ t) = true := by
  induction l with
  | nil => simp [List.isPrefixOf]
  | cons a l ih => simpa [List.isPrefixOf] using ih

theorem isSuffixOf_append (l t : List Char) : t.isSuffixOf (l ++ t) = true := by
  unfold List.isSuffixOf
  rw [List.reverse_append]
  exact isPrefixOf_append _ _

/-- `parseTime` applied to a path of the exact backup shape recovers
whatever `parseTimeStr` reads off the middle section. -/
theorem parseTime_mk (stem ext mid : List Char)
    (hstem : '/' ∉ stem) (hext : '/' ∉ ext) (hmid : '/' ∉ mid) (t' : GoTime)
    (hparse : parseTimeStr mid = some t') :
    parseTime (stem ++ '-' :: (mid ++ ext)) (stem ++ ['-']) ext = t'.unix := by
  have hfp : stem ++ '-' :: (mid ++ ext) = (stem ++ ['-']) ++ (mid ++ ext) := by
    simp
  have hnos : '/' ∉ stem ++ '-' :: (mid ++ ext) := by
    simp only [List.mem_append, List.mem_cons]
    rintro (h | h | h | h)
    · exact hstem h
    · exact absurd h (by decide)
    · exact hmid h
    · exact hext h
  have hb : goBase (stem ++ '-' :: (mid ++ ext)) = stem ++ '-' :: (mid ++ ext) :=
    goBase_of_no_slash hnos (by simp)
  have hpre : (stem ++ ['-']).isPrefixOf (stem ++ '-' :: (mid ++ ext)) = true := by
    rw [hfp]; exact isPrefixOf_append _ _
  have hsuf : ext.isSuffixOf (stem ++ '-' :: (mid ++ ext)) = true := by
    rw [show stem ++ '-' :: (mid ++ ext) = (stem ++ '-' :: mid) ++ ext by simp]
    exact isSuffixOf_append _ _
  have hdrop : (stem ++ '-' :: (mid ++ ext)).drop (stem ++ ['-']).length
      = mid ++ ext := by
    rw [hfp]; exact List.drop_left _ _
  have hlen : (stem ++ '-' :: (mid ++ ext)).length - ext.length
      - (stem ++ ['-']).length = mid.length := by
    simp only [List.length_append, List.length_cons, List.length_nil]
    omega
  unfold parseTime
  dsimp only
  rw [hb, if_pos hpre, if_pos hsuf, hdrop, hlen, List.take_left, hparse]

/-- C4: for every boolean `local` and every time representable in the
backup-time format, building a backup path with `makeBackupFP` from a
slash-free name and parsing it back with `parseTime` (using the prefix
and extension from `getPrefixAndExt`) yields exactly the time's unix
seconds. -/
theorem c4_backup_path_roundtrip (t : GoTime) (name : List Char) (loc : Bool)
    (hrep : Representable t) (hslash : '/' ∉ name) (hne : name ≠ []) :
    parseTime (makeBackupFP name loc t).1 (getPrefixAndExt name).1
      (getPrefixAndExt name).2 = t.unix := by
  obtain ⟨hv, hlo, hhi⟩ := hrep
  have hms : t.ms < 1000 := hv.2.2.2.2.2.2.2.2.1
  have ht1 : ValidTime (if loc then t else t.utc) ∧
      (if loc then t else t.utc).unix = t.unix := by
    cases loc
    · simpa using utc_spec t hms hlo hhi
    · exact ⟨by simpa using hv, by simp⟩
  have hstem : '/' ∉ name.take (name.length - (goExt name).length) := fun hm =>
    hslash (List.take_subset _ _ hm)
  have hext : '/' ∉ goExt name := fun hm => hslash (mem_goExt hm)
  have hmid : '/' ∉ formatTime (if loc then t else t.utc) :=
    slash_not_mem_formatTime ht1.1
  unfold makeBackupFP getPrefixAndExt
  dsimp only
  rw [goDir_of_no_slash hslash, goBase_of_no_slash hslash hne]
  unfold goJoin
  rw [if_pos rfl]
  rw [parseTime_mk _ _ _ hstem hext hmid _ (parseTimeStr_formatTime ht1.1)]
  exact ht1.2

/-- Witness for C4 at `name = "a.log"`, `local = false`,
`t = 2024-06-01T12:34:56.789` at offset 0. -/
theorem c4_backup_path_roundtrip_witness :
    Representable (⟨2024, 6, 1, 12, 34, 56, 789, 0⟩ : GoTime) ∧
    '/' ∉ ['a', '.', 'l', 'o', 'g'] ∧
    (['a', '.', 'l', 'o', 'g'] : List Char) ≠ [] ∧
    parseTime
      (makeBackupFP ['a', '.', 'l', 'o', 'g'] false
        ⟨2024, 6, 1, 12, 34, 56, 789, 0⟩).1
      (getPrefixAndExt ['a', '.', 'l', 'o', 'g']).1
      (getPrefixAndExt ['a', '.', 'l', 'o', 'g']).2
      = (⟨2024, 6, 1, 12, 34, 56, 789, 0⟩ : GoTime).unix := by
  have hval : ValidTime (⟨2024, 6, 1, 12, 34, 56, 789, 0⟩ : GoTime) :=
    ⟨by decide, by decide, by decide, by decide, by decide, by decide,
      by decide, by decide, by decide, dvd_zero 60, by decide⟩
  have hrep : Representable (⟨2024, 6, 1, 12, 34, 56, 789, 0⟩ : GoTime) :=
    ⟨hval, by decide, by decide⟩
  exact ⟨hrep, by decide, by decide,
    c4_backup_path_roundtrip _ _ false hrep (by decide) (by decide)⟩

end Logro
